import Mathlib

/-!
Verification development for the predicate-induction search engine
(`predicate_induction.py`, `predicate.py`, `data_type.py`).

The Python source is shallowly embedded: pandas Series/column masks become
`List Bool`, Python dicts become insertion-ordered association lists, float
scores become `ℚ` (only comparisons are ever performed on scores), and every
reachable Python exception (IndexError, KeyError, TypeError, ValueError,
AttributeError) is modelled by an `Option` result being `none`.
-/

namespace PI

/-- Values stored in a tabular column: nominal labels or integers (ordinal bin
indices). The engine only ever uses equality and ordering on them. -/
inductive PyVal where
  | vstr (s : String)
  | vint (n : Int)
  deriving DecidableEq

/-- Code-point comparison of characters (Python compares strings by code
point; Lean's built-in String order is extern and does not reduce in the
kernel, so a computable equivalent is spelled out). -/
def chLt (a b : Char) : Bool := decide (a.toNat < b.toNat)

/-- Lexicographic less-or-equal on character lists. -/
def clLe : List Char → List Char → Bool
  | [], _ => true
  | _ :: _, [] => false
  | a :: as1, b :: bs => if chLt a b then true else if chLt b a then false else clLe as1 bs

/-- Lexicographic (code-point) string less-or-equal, Python `<=` on str. -/
def strLeB (s t : String) : Bool := clLe s.data t.data

/-- Total comparison used to model Python `sorted` on the homogeneous value
lists that occur in a run (all-int or all-string columns). Python `sorted`
raises on mixed-type columns; this conservative extension orders ints before
strings, and no theorem below depends on the cross-type case. -/
def PyVal.leB : PyVal → PyVal → Bool
  | .vint n, .vint m => decide (n ≤ m)
  | .vstr s, .vstr t => strLeB s t
  | .vint _, .vstr _ => true
  | .vstr _, .vint _ => false

/-- First-match lookup in an association list, modelling Python dict (and
pandas column) indexing; `none` models a KeyError. -/
def lookupList {α β : Type} [DecidableEq α] : List (α × β) → α → Option β
  | [], _ => none
  | (k, v) :: t, c => if k = c then some v else lookupList t c

/-- Python dict assignment `d[k] = v` (also pandas DataFrame column
assignment): rebind in place when the key exists, append at the end
otherwise. -/
def setAssoc {α β : Type} [DecidableEq α] : List (α × β) → α → β → List (α × β)
  | [], k, v => [(k, v)]
  | (k', v') :: t, k, v => if k' = k then (k, v) :: t else (k', v') :: setAssoc t k v

/-- Keys of an association list in insertion order. -/
def keysOf {α β : Type} (l : List (α × β)) : List α := l.map Prod.fst

/-- Python `dict.__eq__` for `column_to_values`: the same key set, and for each
key the stored value lists compare equal elementwise (Python `list.__eq__` is
order- and multiplicity-sensitive). -/
def dictValsEq (l1 l2 : List (String × List PyVal)) : Bool :=
  l1.all (fun kv => lookupList l2 kv.1 == some kv.2) &&
  l2.all (fun kv => lookupList l1 kv.1 == some kv.2)

/-- A row mask: dense boolean vector over the table's rows. -/
abbrev Mask := List Bool

/-- A tabular store: named columns of equal length. -/
abbrev Table := List (String × List PyVal)

/-- Number of rows of the working frame `column_to_mask`: the length of its
first column (0 for an empty frame), matching a DataFrame built from
equal-length columns. -/
def rowCount (ctm : List (String × Mask)) : Nat :=
  match ctm with
  | [] => 0
  | cm :: _ => cm.2.length

/-- Conjunction.get_mask_from_column_to_mask: `column_to_mask.all(axis=1)`,
the row-wise AND across every column of the frame. -/
def get_mask_from_column_to_mask (ctm : List (String × Mask)) : Mask :=
  (List.range (rowCount ctm)).map (fun i => ctm.all (fun cm => cm.2.getD i false))

/-- The predicate data model of `predicate.py` (class `Conjunction`). The
never-read `dtypes` attribute and the verbose-printing plumbing are not
carried. `adjacent` stores value snapshots of the neighbouring predicates:
Python's reference cycles between linked neighbours cannot exist between
values, and no claim below reads through more than the one level of adjacency
the algorithms themselves read. -/
inductive Conj where
  | mk (column_to_values : List (String × List PyVal))
       (column_to_mask : Option (List (String × Mask)))
       (mask : Option Mask)
       (score : Option ℚ)
       (adjacent : List (String × List Conj))
       (base : Bool)
       (parents : Option (Conj × Conj))

/-- Field accessor for `column_to_values`. -/
def Conj.column_to_values : Conj → List (String × List PyVal)
  | .mk v _ _ _ _ _ _ => v

/-- Field accessor for `column_to_mask`. -/
def Conj.column_to_mask : Conj → Option (List (String × Mask))
  | .mk _ c _ _ _ _ _ => c

/-- Field accessor for the cached `mask`. -/
def Conj.mask : Conj → Option Mask
  | .mk _ _ m _ _ _ _ => m

/-- Field accessor for the cached `score`. -/
def Conj.score : Conj → Option ℚ
  | .mk _ _ _ s _ _ _ => s

/-- Field accessor for `adjacent`. -/
def Conj.adjacent : Conj → List (String × List Conj)
  | .mk _ _ _ _ a _ _ => a

/-- Field accessor for `is_base`. -/
def Conj.isBase : Conj → Bool
  | .mk _ _ _ _ _ b _ => b

/-- Field accessor for `parents`. -/
def Conj.parents : Conj → Option (Conj × Conj)
  | .mk _ _ _ _ _ _ p => p

/-- Replace the cached mask (the write performed by `get_mask_cached`). -/
def Conj.withMask : Conj → Option Mask → Conj
  | .mk v c _ s a b p, m => .mk v c m s a b p

/-- Replace the cached score (the write performed by `get_score_cached`). -/
def Conj.withScore : Conj → Option ℚ → Conj
  | .mk v c m _ a b p, s => .mk v c m s a b p

/-- Replace the adjacency map (the write performed by
`set_adjacent_predicate`). -/
def Conj.withAdjacent : Conj → List (String × List Conj) → Conj
  | .mk v c m s _ b p, a => .mk v c m s a b p

/-- Conjunction.__init__ stores `columns = list(column_to_values.keys())`. -/
def Conj.columns (p : Conj) : List String := keysOf p.column_to_values

/-- Insertion step of the sort modelling Python `sorted`: `a` is placed before
the first element `b` with `le a b`. -/
def insertLe {α : Type} (le : α → α → Bool) (a : α) : List α → List α
  | [] => [a]
  | b :: t => if le a b then a :: b :: t else b :: insertLe le a t

/-- Insertion sort by a boolean comparison (stable when `le` is reflexive on
equal sort keys). -/
def sortLe {α : Type} (le : α → α → Bool) : List α → List α
  | [] => []
  | a :: t => insertLe le a (sortLe le t)

/-- Predicate.__init__ stores `keys = sorted(keys)`: the column names in
ascending (code-point) string order. -/
def Conj.keys (p : Conj) : List String :=
  sortLe strLeB p.columns

/-- Conjunction.__eq__ between two conjunctions: Python dict equality of
`column_to_values`. -/
def pyEq (p q : Conj) : Bool :=
  dictValsEq p.column_to_values q.column_to_values

/-- Conjunction.is_contained_key: containment along one column,
`set(self.column_to_values[column]) ⊆ set(predicate.column_to_values[column])`,
false when either predicate lacks the column. -/
def Conj.is_contained_key (p : Conj) (column : String) (other : Conj) : Bool :=
  match lookupList p.column_to_values column, lookupList other.column_to_values column with
  | some vs, some vt => vs.all (fun v => vt.contains v)
  | _, _ => false

/-- Predicate.is_contained: containment along every key of `keys`
(`predicate.keys` when the argument is None); a key missing from the
containing predicate fails the check. -/
def Conj.is_contained (p : Conj) (other : Conj) (keys : Option (List String)) : Bool :=
  (keys.getD other.keys).all (fun k =>
    if (other.keys).contains k then p.is_contained_key k other else false)

/-- Predicate.is_adjacent: membership of the argument in `self.adjacent[key]`
by Python `==` (Conjunction.__eq__); false when the key has no adjacency
list. -/
def Conj.is_adjacent (p : Conj) (key : String) (other : Conj) : Bool :=
  match lookupList p.adjacent key with
  | none => false
  | some l => l.any (fun q => pyEq other q)

/-- Predicate.is_adjacent_all: adjacency along every key of `keys`
(`self.keys` when the argument is None). -/
def Conj.is_adjacent_all (p : Conj) (other : Conj) (keys : Option (List String)) : Bool :=
  (keys.getD p.keys).all (fun k => p.is_adjacent k other)

/-- Conjunction.get_column_to_mask: one boolean column per constrained column,
`data[column].isin(values)`; indexing a missing data column raises. -/
def get_column_to_mask (ctv : List (String × List PyVal)) (data : Table) :
    Option (List (String × Mask)) :=
  ctv.foldr (fun kv acc => do
    let col ← lookupList data kv.1
    let rest ← acc
    pure ((kv.1, col.map (fun v => kv.2.contains v)) :: rest)) (some [])

/-- Conjunction.get_mask as reached through get_mask_cached (no explicit
`column_to_values` argument): raises ValueError unless `column_to_mask` is
already set, else returns the row-wise AND. The cache write is returned as an
updated predicate. -/
def Conj.get_mask_cached (p : Conj) : Option (Conj × Mask) :=
  match p.mask with
  | some m => some (p, m)
  | none =>
    match p.column_to_mask with
    | some ctm =>
      let m := get_mask_from_column_to_mask ctm
      some (p.withMask (some m), m)
    | none => none

/-- Predicate.get_score_cached / get_score: return the cached score if
present, else apply the scoring function to the (cache-chained) mask and write
the score cache. -/
def Conj.get_score_cached (score_f : Mask → ℚ) (p : Conj) : Option (Conj × ℚ) :=
  match p.score with
  | some s => some (p, s)
  | none => do
    let (p1, m) ← p.get_mask_cached
    let s := score_f m
    pure (p1.withScore (some s), s)

/-- The score a predicate would report through the cache chain, without the
cache write (used where the source reads a score off a deepcopy, so the write
is unobservable). -/
def score_of (score_f : Mask → ℚ) (p : Conj) : Option ℚ :=
  (p.get_score_cached score_f).map (fun x => x.2)

/-- Pointwise OR of two column masks (pandas `|` on equal-length Series). -/
def maskOr (a b : Mask) : Mask := a.zipWith or b

/-- CPython's `list(set(..))` iterates the hash set in unspecified order; it
is rendered as an order-preserving dedup of the concatenation the source
builds the set from. No theorem below depends on this ordering choice. -/
def pySetList (l : List PyVal) : List PyVal := l.dedup

/-- Working state of the loop inside Conjunction.merge: the evolving copies of
`column_to_values`, `column_to_mask` and `adjacent`. -/
abbrev MergeSt :=
  List (String × List PyVal) × List (String × Mask) × List (String × List Conj)

/-- One iteration of the loop in Conjunction.merge over an entry
`(column, values)` of the second operand. `none` models the KeyErrors
reachable through `predicate.column_to_mask[column]` and
`predicate.adjacent[column]`. -/
def merge_step (self other : Conj) (st : MergeSt) (kv : String × List PyVal) :
    Option MergeSt := do
  let (ctv, ctm, adj) := st
  let column := kv.1
  let values := kv.2
  if (keysOf ctv).contains column then
    -- shared column: union the value sets, OR the per-column masks,
    -- and rebuild the adjacency list when the column has one
    let cur ← lookupList ctv column
    let selfMask ← lookupList ctm column
    let otherMask ← other.column_to_mask.bind (fun l => lookupList l column)
    let ctv1 := setAssoc ctv column (pySetList (values ++ cur))
    let ctm1 := setAssoc ctm column (maskOr selfMask otherMask)
    if (keysOf adj).contains column then do
      let selfAdj ← lookupList self.adjacent column
      let otherAdj ← lookupList other.adjacent column
      let merged :=
        (selfAdj.filter (fun p =>
            !(p.is_contained_key column other) && !(otherAdj.any (fun q => pyEq p q)))) ++
        (otherAdj.filter (fun p =>
            !(p.is_contained_key column self) && !(selfAdj.any (fun q => pyEq p q))))
      pure (ctv1, ctm1, setAssoc adj column merged)
    else
      pure (ctv1, ctm1, adj)
  else
    -- column only in the second operand: copy its values and mask
    let otherMask ← other.column_to_mask.bind (fun l => lookupList l column)
    let ctv1 := ctv ++ [(column, values)]
    let ctm1 := ctm ++ [(column, otherMask)]
    if (keysOf adj).contains column then do
      let otherAdj ← lookupList other.adjacent column
      pure (ctv1, ctm1, setAssoc adj column (otherAdj.filter (fun p => !(pyEq p self))))
    else
      pure (ctv1, ctm1, adj)

/-- Conjunction.merge translated statement by statement. The returned triple
is (merged predicate, first operand after the call, second operand after the
call): the method only reads the operands, working on `.copy()`s and rebinding
locals, and the translation makes that explicit so the frame property can be
stated. Entry fails (AttributeError) when the first operand has no
`column_to_mask`. -/
def merge_with_operands (self other : Conj) : Option (Conj × Conj × Conj) := do
  let ctm0 ← self.column_to_mask
  let st ← other.column_to_values.foldlM (merge_step self other)
      (self.column_to_values, ctm0, self.adjacent)
  let (ctv, ctm, adj) := st
  let m := get_mask_from_column_to_mask ctm
  pure (Conj.mk ctv (some ctm) (some m) none adj false (some (self, other)), self, other)

/-- `p.merge(q)`: the merged predicate alone. -/
def merge (self other : Conj) : Option Conj :=
  (merge_with_operands self other).map (fun x => x.1)

/-- Inner scan of PredicateInduction.insert_sorted over a non-empty queue:
score each element in turn (writing its cache), insert the predicate before
the first element with a strictly smaller score, else append at the end
(`return len(queue)` after the append). -/
def insert_sorted_scan (score_f : Mask → ℚ) (p1 : Conj) (s : ℚ) :
    List Conj → Nat → Option (List Conj × Nat)
  | [], i => some ([p1], i + 1)
  | q :: t, i => do
    let (q1, qs) ← q.get_score_cached score_f
    if s > qs then
      pure (p1 :: q1 :: t, i)
    else do
      let (l, j) ← insert_sorted_scan score_f p1 s t (i + 1)
      pure (q1 :: l, j)

/-- PredicateInduction.insert_sorted: append immediately (returning 1) when
the queue is empty, without touching any score cache; otherwise score the
predicate and scan the queue. -/
def insert_sorted (score_f : Mask → ℚ) (queue : List Conj) (p : Conj) :
    Option (List Conj × Nat) :=
  match queue with
  | [] => some ([p], 1)
  | q :: t => do
    let (p1, s) ← p.get_score_cached score_f
    insert_sorted_scan score_f p1 s (q :: t) 0

/-- The four predicate collections of PredicateInduction. -/
structure SearchState where
  frontier : List Conj
  accepted : List Conj
  rejected : List Conj
  conditionally_accepted : List Conj

/-- Inner while-loop of update_frontier: scan accepted in order for the first
predicate that contains the child with a strictly greater score; comparing an
uncached accepted score raises. -/
def find_subsumer (child : Conj) (cs : ℚ) : List Conj → Option (Option Conj)
  | [] => some none
  | a :: t =>
    if child.is_contained a none then
      match a.score with
      | some sa => if sa > cs then some (some a) else find_subsumer child cs t
      | none => none
    else find_subsumer child cs t

/-- Body of update_frontier's for-loop over one child, threading the state
`(is_done, all_children_subsumed, frontier)`. -/
def uf_step (score_f : Mask → ℚ) (accepted : List Conj) (parent : Conj)
    (st : Bool × Bool × List Conj) (child : Conj) : Option (Bool × Bool × List Conj) := do
  let (isDone, allSub, fr) := st
  let cs ← child.score
  let ps ← parent.score
  if cs > ps then do
    let osub ← find_subsumer child cs accepted
    match osub with
    | none => do
      let (fr1, _) ← insert_sorted score_f fr child
      pure (false, false, fr1)
    | some a =>
      if parent.keys.any (fun k => a.keys.contains k) then
        pure (isDone, allSub, fr)
      else
        pure (isDone, false, fr)
  else
    pure (isDone, false, fr)

/-- PredicateInduction.update_frontier (verbose printing elided): every child
scoring strictly above the parent and not subsumed by an accepted predicate is
inserted into the frontier; returns the updated frontier together with
`is_done` and `all_children_subsumed`. -/
def update_frontier (score_f : Mask → ℚ) (accepted : List Conj)
    (frontier : List Conj) (parent : Conj) (children : List Conj) :
    Option (List Conj × Bool × Bool) := do
  let st ← children.foldlM (uf_step score_f accepted parent)
    (true, decide (0 < children.length), frontier)
  pure (st.2.2, st.1, st.2.1)

/-- Python `list.remove`: drop the first element equal (Conjunction.__eq__) to
the argument; ValueError when none is. -/
def removeFirstPyEq (x : Conj) : List Conj → Option (List Conj)
  | [] => none
  | y :: t => if pyEq y x then some t else (removeFirstPyEq x t).map (fun l => y :: l)

/-- PredicateInduction.move_predicate: remove from one list, sorted-insert
into the other. -/
def move_predicate (score_f : Mask → ℚ) (p : Conj) (location destination : List Conj) :
    Option (List Conj × List Conj) := do
  let loc1 ← removeFirstPyEq p location
  let (dest1, _) ← insert_sorted score_f destination p
  pure (loc1, dest1)

/-- First while-loop of update_accepted_rejected_predicate: scan the contained
accepted predicates in order; report `true` (meaning the predicate was pushed
to rejected and `is_subsuming` cleared) at the first one whose score is at
least the predicate's. -/
def find_not_subsuming (ps : ℚ) : List Conj → Option Bool
  | [] => some false
  | c :: t => do
    let cs ← c.score
    if ps ≤ cs then pure true else find_not_subsuming ps t

/-- Second while-loop of update_accepted_rejected_predicate (base predicates
only): is the predicate contained in some accepted predicate scoring at least
as high? -/
def base_subsumed (p : Conj) (ps : ℚ) : List Conj → Option Bool
  | [] => some false
  | a :: t =>
    if p.is_contained a none then
      match a.score with
      | some sa => if ps ≤ sa then some true else base_subsumed p ps t
      | none => none
    else base_subsumed p ps t

/-- PredicateInduction.update_accepted_rejected_predicate: decide whether the
popped predicate joins accepted or rejected, demoting the accepted predicates
it subsumes. The source's inner `if is_subsuming and predicate.score >
threshold` re-test is kept although its second conjunct is already known. -/
def update_accepted_rejected_predicate (score_f : Mask → ℚ)
    (accepted rejected : List Conj) (predicate : Conj)
    (is_done all_children_subsumed : Bool) (threshold : ℚ) :
    Option (List Conj × List Conj) :=
  if !is_done then some (accepted, rejected)
  else if all_children_subsumed then do
    let (r1, _) ← insert_sorted score_f rejected predicate
    pure (accepted, r1)
  else do
    let ps ← predicate.score
    if ps > threshold then do
      let contained := accepted.filter (fun p => p.is_contained predicate none)
      let stopped ← find_not_subsuming ps contained
      if stopped then do
        let (r1, _) ← insert_sorted score_f rejected predicate
        pure (accepted, r1)
      else if ps > threshold then do
        let subB ← if predicate.isBase then base_subsumed predicate ps accepted else pure false
        let (acc1, rej1) ←
          if !subB then do
            let (a1, _) ← insert_sorted score_f accepted predicate
            pure (a1, rejected)
          else do
            let (r1, _) ← insert_sorted score_f rejected predicate
            pure (accepted, r1)
        contained.foldlM (fun st c => move_predicate score_f c st.1 st.2) (acc1, rej1)
      else
        pure (accepted, rejected)
    else do
      let (r1, _) ← insert_sorted score_f rejected predicate
      pure (accepted, r1)

/-- Python `del l[i]` on a list: remove the element at index `i`, IndexError
(`none`) when the index is out of range. -/
def delAt {α : Type} (l : List α) (i : Nat) : Option (List α) :=
  if i < l.length then some (l.eraseIdx i) else none

theorem delAt_length {α : Type} {l l' : List α} {i : Nat}
    (h : delAt l i = some l') : l'.length < l.length := by
  unfold delAt at h
  split at h
  · cases h
    simpa [List.length_eraseIdx, *] using Nat.sub_lt (Nat.lt_of_le_of_lt (Nat.zero_le _) (by assumption)) Nat.one_pos
  · cases h

/-- Modelled from the spec: `Predicate.is_subsumed`, called at
predicate_induction.py line 207 but absent from src (the Predicate class
defines only `is_contained`, `is_adjacent_all`, `is_worse`). The spec defines
"Subsumed by q" as `p ⊑ q ∧ score(p) ≤ score(q)`; the call site restricts
containment to the bucket's keys (`keys=keys`) and passes the data and scoring
function, so the scores are read through the cache chain. The receiver is an
element of a `deepcopy`, so any cache write there is unobservable and the read
is modelled purely. -/
def is_subsumed_model (score_f : Mask → ℚ) (self other : Conj) (keys : List String) :
    Option Bool :=
  if self.is_contained other (some keys) then do
    let s1 ← score_of score_f self
    let s2 ← score_of score_f other
    pure (decide (s1 ≤ s2))
  else
    pure false

/-- Scan loop of PredicateInduction.greedy_merge_predicate. `orig` is the
`deepcopy` snapshot `candidate_predicates` (deep copies compare equal under
Conjunction.__eq__, so a value snapshot is faithful), `cur` the live list that
`del predicates[i]` mutates, `i` the loop index; deleting at an index past the
end of the live list is the reachable IndexError. The source restarts by
re-entering greedy_merge_predicate, whose first step re-reads the score of the
merged predicate from the cache just written; the restart here passes that
score along, which is the same value. -/
def gmp_scan (score_f : Mask → ℚ) (keys : List String) :
    Conj → ℚ → List Conj → List Conj → Nat → Option (Conj × List Conj)
  | pred, score, orig, cur, i =>
    match h : orig.get? i with
    | none => some (pred, cur)
    | some p =>
      if pred.is_adjacent_all p (some keys) then
        match merge pred p with
        | none => none
        | some m =>
          match m.get_score_cached score_f with
          | none => none
          | some (m1, mscore) =>
            if mscore ≥ score then
              match h2 : delAt cur i with
              | none => none
              | some cur1 => gmp_scan score_f keys m1 mscore cur1 cur1 0
            else
              gmp_scan score_f keys pred score orig cur (i + 1)
      else
        match is_subsumed_model score_f p pred keys with
        | none => none
        | some true =>
          match h3 : delAt cur i with
          | none => none
          | some cur1 => gmp_scan score_f keys pred score orig cur1 (i + 1)
        | some false => gmp_scan score_f keys pred score orig cur (i + 1)
termination_by pred score orig cur i => (cur.length, orig.length - i)
decreasing_by
  · exact Prod.Lex.left _ _ (delAt_length h2)
  · apply Prod.Lex.right
    exact Nat.sub_lt_sub_left (List.get?_eq_some.mp h).1 (Nat.lt_succ_self i)
  · exact Prod.Lex.left _ _ (delAt_length h3)
  · apply Prod.Lex.right
    exact Nat.sub_lt_sub_left (List.get?_eq_some.mp h).1 (Nat.lt_succ_self i)

/-- PredicateInduction.greedy_merge_predicate: score the predicate (writing
its cache), snapshot the bucket, and run the scan. -/
def greedy_merge_predicate (score_f : Mask → ℚ) (keys : List String)
    (predicate : Conj) (predicates : List Conj) : Option (Conj × List Conj) := do
  let (p1, score) ← predicate.get_score_cached score_f
  gmp_scan score_f keys p1 score predicates predicates 0

/-- While-loop of PredicateInduction.greedy_merge; `fuel` counts the
iterations remaining out of the source's 100000 safety cap. A popped predicate
whose raw `score` attribute is unset raises on the threshold comparison. -/
def greedy_merge_loop (score_f : Mask → ℚ) (keys : List String) (threshold : ℚ) :
    Nat → List Conj → Option (List Conj)
  | 0, _ => some []
  | _ + 1, [] => some []
  | fuel + 1, p :: rest => do
    let ps ← p.score
    if ps > threshold then do
      let (p1, rest1) ← greedy_merge_predicate score_f keys p rest
      let tail ← greedy_merge_loop score_f keys threshold fuel rest1
      pure (p1 :: tail)
    else
      greedy_merge_loop score_f keys threshold fuel rest

/-- PredicateInduction.greedy_merge. -/
def greedy_merge (score_f : Mask → ℚ) (keys : List String) (threshold : ℚ)
    (predicates : List Conj) : Option (List Conj) :=
  greedy_merge_loop score_f keys threshold 100000 predicates

/-- PredicateInduction.get_key_to_predicates: bucket the list by
`tuple(p.keys)` in first-appearance order, appending within a bucket. -/
def get_key_to_predicates (predicates : List Conj) :
    List (List String × List Conj) :=
  predicates.foldl (fun acc p =>
    match lookupList acc p.keys with
    | some l => setAssoc acc p.keys (l ++ [p])
    | none => acc ++ [(p.keys, [p])]) []

/-- PredicateInduction.greedy_merge_frontier. The pruning pass against
`self.conditionally_accepted` calls `is_contained_key` with a single argument
and compares a predicate object against a float, so with a non-empty
`conditionally_accepted` attribute its first step raises a TypeError; it
completes (keeping every bucket element) exactly when that attribute is the
empty list, its state at every call the engine itself makes. -/
def greedy_merge_frontier (score_f : Mask → ℚ) (threshold : ℚ)
    (s : SearchState) : Option (List Conj) :=
  (get_key_to_predicates s.frontier).foldlM (fun acc kb => do
    let pruned ← kb.2.foldlM (fun acc2 p =>
        if s.conditionally_accepted.isEmpty then some (acc2 ++ [p]) else none)
      ([] : List Conj)
    let merged ← greedy_merge score_f kb.1 threshold pruned
    pure (acc ++ merged)) []

/-- PredicateInduction.get_conditionally_accepted: greedy-merge the frontier
when a conditional threshold is set, else the empty list. -/
def get_conditionally_accepted (score_f : Mask → ℚ)
    (conditional_threshold : Option ℚ) (s : SearchState) : Option (List Conj) :=
  match conditional_threshold with
  | some t => greedy_merge_frontier score_f t s
  | none => some []

/-- Containment in either direction, the pair test of
PredicateInduction.merge_predicates. -/
def pair_related (a b : Conj) : Bool :=
  a.is_contained b none || b.is_contained a none

/-- Body of merge_predicates' inner pair loop, for the element `a` of
`predicates_a` at index `i` against the enumerated element `jb` of
`predicates_b`: clear a keep flag when the pair is related (uncached scores of
a related pair raise). -/
def mp_pair_step (a : Conj) (i : Nat) (fl2 : List Bool × List Bool)
    (jb : Nat × Conj) : Option (List Bool × List Bool) := do
  if pair_related a jb.2 then do
    let sa ← a.score
    let sb ← jb.2.score
    if sa ≥ sb then pure (fl2.1, fl2.2.set jb.1 false)
    else if sb ≥ sa then pure (fl2.1.set i false, fl2.2)
    else pure fl2
  else pure fl2

/-- One outer iteration of merge_predicates' flag computation: scan all of
`predicates_b` against one enumerated element of `predicates_a`. -/
def mp_flags_step (predicates_b : List Conj) (fl : List Bool × List Bool)
    (ia : Nat × Conj) : Option (List Bool × List Bool) :=
  predicates_b.enum.foldlM (mp_pair_step ia.2 ia.1) fl

/-- One iteration of merge_predicates' insertion loops: sorted-insert the
element when its keep flag survived. -/
def mp_insert (score_f : Mask → ℚ) (flags : List Bool) (acc : List Conj)
    (xe : Nat × Conj) : Option (List Conj) :=
  if flags.getD xe.1 false then do
    let (l, _) ← insert_sorted score_f acc xe.2
    pure l
  else pure acc

/-- PredicateInduction.merge_predicates: mark the keep flags over every (a, b)
pair, then sorted-insert the kept members of `predicates_a` followed by the
kept members of `predicates_b` into a fresh list. -/
def merge_predicates (score_f : Mask → ℚ)
    (predicates_a predicates_b : List Conj) : Option (List Conj) := do
  let flags ← predicates_a.enum.foldlM (mp_flags_step predicates_b)
    (List.replicate predicates_a.length true, List.replicate predicates_b.length true)
  let merged1 ← predicates_a.enum.foldlM (mp_insert score_f flags.1) ([] : List Conj)
  predicates_b.enum.foldlM (mp_insert score_f flags.2) merged1

/-- PredicateInduction.get_predicates: merge accepted with the conditionally
accepted predicates extracted from the frontier. -/
def get_predicates (score_f : Mask → ℚ) (conditional_threshold : Option ℚ)
    (s : SearchState) : Option (List Conj) := do
  let ca ← get_conditionally_accepted score_f conditional_threshold s
  merge_predicates score_f s.accepted ca

/-- PredicateInduction.get_max_score:
`max(self.frontier[0].score, self.accepted[0].score)`. Indexing an empty
frontier or accepted list raises IndexError, and a None cached score raises
TypeError in the comparison; both are `none`. -/
def get_max_score (s : SearchState) : Option ℚ := do
  let f ← s.frontier.head?
  let a ← s.accepted.head?
  let fs ← f.score
  let sa ← a.score
  pure (max fs sa)

/-- Python `sorted(ps, key=lambda x: x.score, reverse=True)`: with at most one
element no comparison happens; otherwise every element's key takes part in
some comparison, so a single unset score raises. The sort is stable and
descending. -/
def pySortScoreDesc (ps : List Conj) : Option (List Conj) :=
  if ps.length ≤ 1 then some ps
  else do
    let _ ← ps.mapM (fun p => p.score)
    let keyed ← ps.mapM (fun p => p.score.map (fun s => (p, s)))
    pure ((sortLe (fun a b => decide (a.2 ≥ b.2)) keyed).map (fun x => x.1))

/-- Python `list.index`: index of the first element equal (by
Conjunction.__eq__) to the argument; ValueError when absent. -/
def idxOfPyEq (x : Conj) : List Conj → Option Nat
  | [] => none
  | y :: t => if pyEq y x then some 0 else (idxOfPyEq x t).map (fun n => n + 1)

/-- PredicateInduction.get_first_index: 0 when no candidate list is given,
else the frontier index of the highest-scoring candidate. -/
def get_first_index (frontier : List Conj) (predicates : Option (List Conj)) :
    Option Nat :=
  match predicates with
  | none => some 0
  | some ps => do
    let sorted1 ← pySortScoreDesc ps
    let p0 ← sorted1.head?
    idxOfPyEq p0 frontier

/-- PredicateInduction.update_accepted_rejected_function: pop the chosen
frontier predicate, generate its children with `update_f`, update the
frontier, then accept or reject the parent. -/
def update_accepted_rejected_function (score_f : Mask → ℚ)
    (update_f : Conj → Option (List Conj)) (predicates : Option (List Conj))
    (threshold : ℚ) (s : SearchState) : Option SearchState := do
  let fi ← get_first_index s.frontier predicates
  let predicate ← s.frontier.get? fi
  let frontier0 := s.frontier.eraseIdx fi
  let children ← update_f predicate
  let (fr1, isDone, allSub) ← update_frontier score_f s.accepted frontier0 predicate children
  let (acc1, rej1) ← update_accepted_rejected_predicate score_f s.accepted s.rejected
      predicate isDone allSub threshold
  pure { s with frontier := fr1, accepted := acc1, rejected := rej1 }

/-- While-loop of PredicateInduction.get_predicates_maxiters, with an explicit
unfolding budget `fuel` (the source loop is unbounded when `maxiters` is None;
exhausted fuel, `none`, stands for a run that has not yet returned). At every
iteration with a non-empty frontier and the iteration cap not reached, a set
`conditional_threshold` first triggers the max-score check, returning the
finalised result early when it exceeds the threshold. -/
def get_predicates_maxiters_loop (score_f : Mask → ℚ)
    (update_f : Conj → Option (List Conj)) (predicates : Option (List Conj))
    (maxiters : Option Nat) (threshold : ℚ) (conditional_threshold : Option ℚ) :
    Nat → Nat → SearchState → Option (List Conj)
  | 0, _, _ => none
  | fuel + 1, i, s =>
    if !s.frontier.isEmpty &&
        (match maxiters with | none => true | some m => decide (i < m)) then
      match conditional_threshold with
      | some t => do
        let ms ← get_max_score s
        if ms > t then
          get_predicates score_f conditional_threshold s
        else do
          let s1 ← update_accepted_rejected_function score_f update_f predicates threshold s
          get_predicates_maxiters_loop score_f update_f predicates maxiters threshold
            conditional_threshold fuel (i + 1) s1
      | none => do
        let s1 ← update_accepted_rejected_function score_f update_f predicates threshold s
        get_predicates_maxiters_loop score_f update_f predicates maxiters threshold
          conditional_threshold fuel (i + 1) s1
    else
      get_predicates score_f conditional_threshold s

/-- PredicateInduction.get_predicates_maxiters: the loop started at
iteration 0. -/
def get_predicates_maxiters (score_f : Mask → ℚ)
    (update_f : Conj → Option (List Conj)) (predicates : Option (List Conj))
    (maxiters : Option Nat) (threshold : ℚ) (conditional_threshold : Option ℚ)
    (fuel : Nat) (s : SearchState) : Option (List Conj) :=
  get_predicates_maxiters_loop score_f update_f predicates maxiters threshold
    conditional_threshold fuel 0 s

/-- The per-instance derived state of BottomUp.__init__: the key set of the
base predicates and the bucketing of base predicates per key. Python builds
`keys` as `list(set(..))` whose iteration order is unspecified; the claims
below do not depend on it. -/
structure BottomUpEngine where
  keys : List String
  key_to_base_predicates : List (String × List Conj)

/-- BottomUp.merge_predicate_candidates: merge the predicate with every
candidate, keeping exactly the merges that strictly improve on the
predicate's score. Score-cache writes to shared candidate objects are benign
for a deterministic scoring function and are threaded locally here. -/
def merge_predicate_candidates (score_f : Mask → ℚ) (predicate : Conj)
    (candidate_predicates : Option (List Conj)) : Option (List Conj) :=
  match candidate_predicates with
  | none => some []
  | some cs => do
    let (p1, score) ← predicate.get_score_cached score_f
    cs.foldlM (fun acc c => do
      let (c1, _) ← c.get_score_cached score_f
      let m ← merge p1 c1
      let (m1, mscore) ← m.get_score_cached score_f
      if mscore > score then pure (acc ++ [m1]) else pure acc) []

/-- BottomUp.refine_predicate_key: candidates are the base predicates of the
key (`self.key_to_base_predicates[key]`, KeyError when absent). -/
def refine_predicate_key (score_f : Mask → ℚ) (eng : BottomUpEngine)
    (predicate : Conj) (key : String) : Option (List Conj) := do
  let cands ← lookupList eng.key_to_base_predicates key
  merge_predicate_candidates score_f predicate (some cands)

/-- BottomUp.expand_predicate_key: candidates are `predicate.adjacent.get(key)`
(None when the key has no adjacency list, which yields no children). -/
def expand_predicate_key (score_f : Mask → ℚ) (predicate : Conj) (key : String) :
    Option (List Conj) :=
  merge_predicate_candidates score_f predicate (lookupList predicate.adjacent key)

/-- BottomUp.apply_all_keys: concatenate the children generated per key. -/
def apply_all_keys (keys : List String) (f : Conj → String → Option (List Conj))
    (predicate : Conj) : Option (List Conj) := do
  let ls ← keys.mapM (f predicate)
  pure ls.flatten

/-- BottomUp.refine_predicate: refine along every engine key the predicate
does not already constrain. -/
def refine_predicate (score_f : Mask → ℚ) (eng : BottomUpEngine)
    (predicate : Conj) : Option (List Conj) :=
  apply_all_keys (eng.keys.filter (fun k => !predicate.keys.contains k))
    (refine_predicate_key score_f eng) predicate

/-- BottomUp.expand_predicate: expand along every key of the predicate. -/
def expand_predicate (score_f : Mask → ℚ) (predicate : Conj) :
    Option (List Conj) :=
  apply_all_keys predicate.keys (fun p k => expand_predicate_key score_f p k) predicate

/-- BottomUp.expand_refine_predicate: the expanded children followed by the
refined children. -/
def expand_refine_predicate (score_f : Mask → ℚ) (eng : BottomUpEngine)
    (predicate : Conj) : Option (List Conj) := do
  let e ← expand_predicate score_f predicate
  let r ← refine_predicate score_f eng predicate
  pure (e ++ r)

/-- BottomUp.expand: the main loop driven by expand_predicate. -/
def expand (score_f : Mask → ℚ) (predicates : Option (List Conj))
    (maxiters : Option Nat) (threshold : ℚ) (conditional_threshold : Option ℚ)
    (fuel : Nat) (s : SearchState) : Option (List Conj) :=
  get_predicates_maxiters score_f (expand_predicate score_f) predicates maxiters
    threshold conditional_threshold fuel s

/-- BottomUp.refine: the main loop driven by refine_predicate. -/
def refine (score_f : Mask → ℚ) (eng : BottomUpEngine)
    (predicates : Option (List Conj)) (maxiters : Option Nat) (threshold : ℚ)
    (conditional_threshold : Option ℚ) (fuel : Nat) (s : SearchState) :
    Option (List Conj) :=
  get_predicates_maxiters score_f (refine_predicate score_f eng) predicates maxiters
    threshold conditional_threshold fuel s

/-- BottomUp.expand_refine: the main loop driven by expand_refine_predicate. -/
def expand_refine (score_f : Mask → ℚ) (eng : BottomUpEngine)
    (predicates : Option (List Conj)) (maxiters : Option Nat) (threshold : ℚ)
    (conditional_threshold : Option ℚ) (fuel : Nat) (s : SearchState) :
    Option (List Conj) :=
  get_predicates_maxiters score_f (expand_refine_predicate score_f eng) predicates
    maxiters threshold conditional_threshold fuel s

/-- The dtype vocabulary of data_type.py. -/
inductive Dtype where
  | nominal
  | ordinal
  | numeric
  | binary
  deriving DecidableEq

/-- The mutable state of a Tabular data object: the working table and dtype
map, the write-once shadow of both, and the binning configuration. -/
structure TabularState where
  data : Table
  dtypes : List (String × Dtype)
  original_data : Option Table
  original_dtypes : Option (List (String × Dtype))
  num_bins : Nat
  num_points_per_bin : Option Nat
  deriving DecidableEq

/-- Tabular.convert_data: only numeric→ordinal is defined, via bin_numeric;
every other dtype pair yields None. The equal-width binning itself
(`pandas.cut` and the category relabelling) is an opaque parameter like the
user's scoring function: no claim below evaluates it. -/
def convert_data (bin_numeric : TabularState → String → List PyVal)
    (t : TabularState) (column : String) (old_dtype new_dtype : Dtype) :
    Option (List PyVal) :=
  if old_dtype = Dtype.numeric ∧ new_dtype = Dtype.ordinal then
    some (bin_numeric t column)
  else
    none

/-- Data.convert_dtype: install the converted column and dtype when
conversion is defined, saving the pre-conversion table and dtypes as a shadow
on the first conversion; otherwise leave the state untouched. -/
def convert_dtype (bin_numeric : TabularState → String → List PyVal)
    (t : TabularState) (column : String) (old_dtype new_dtype : Dtype) :
    TabularState :=
  match convert_data bin_numeric t column old_dtype new_dtype with
  | none => t
  | some cd =>
    let t1 := if t.original_data = none then
        { t with original_data := some t.data, original_dtypes := some t.dtypes }
      else t
    { t1 with
      data := setAssoc t1.data column cd,
      dtypes := setAssoc t1.dtypes column new_dtype }

/-- Data.convert_all: convert every key whose dtype is not admissible through
the dtype map (`self.dtypes[key]` / `allowed_dtypes_map[..]` raise KeyError
when absent). -/
def convert_all (bin_numeric : TabularState → String → List PyVal)
    (t : TabularState) (allowed_dtypes_map : List (Dtype × Dtype))
    (allowed_dtypes : List Dtype) (keys : List String) : Option TabularState :=
  keys.foldlM (fun tt k => do
    let dt ← lookupList tt.dtypes k
    if allowed_dtypes.contains dt then
      pure tt
    else do
      let nd ← lookupList allowed_dtypes_map dt
      pure (convert_dtype bin_numeric tt k dt nd)) t

/-- Conjunction.__init__ on the bottom_up_init path (`data` given, no masks):
eagerly compute the per-column masks and the row mask of a base predicate. -/
def mk_base_conj (data : Table) (column : String) (v : PyVal) : Option Conj := do
  let ctm ← get_column_to_mask [(column, [v])] data
  pure (Conj.mk [(column, [v])] (some ctm)
    (some (get_mask_from_column_to_mask ctm)) none [] true none)

/-- Predicate.set_adjacent_predicate: append the predicate to the adjacency
list of the key, creating the list when absent. -/
def Conj.add_adjacent (p : Conj) (key : String) (q : Conj) : Conj :=
  match lookupList p.adjacent key with
  | none => p.withAdjacent (p.adjacent ++ [(key, [q])])
  | some l => p.withAdjacent (setAssoc p.adjacent key (l ++ [q]))

/-- The ordinal linking loop of bottom_up_init: each predicate and its
predecessor are made adjacent to each other (Predicate.set_adjacent, which
first extends the successor, then the predecessor). Stored neighbours are
their value snapshots at link time, see `Conj`. -/
def link_chain (column : String) : List Conj → List Conj
  | [] => []
  | [a] => [a]
  | a :: b :: t =>
    let b1 := b.add_adjacent column a
    let a1 := a.add_adjacent column b1
    a1 :: link_chain column (b1 :: t)
termination_by l => l.length

/-- Conjunction.bottom_up_init on the data_obj+columns path: run convert_all
when no shadow table exists yet, then build one base predicate per distinct
value of every column in ascending order (`sorted(data[column].unique())`),
linking consecutive base predicates of ordinal columns as adjacent. -/
def bottom_up_init (bin_numeric : TabularState → String → List PyVal)
    (data_obj : TabularState) (columns : List String) : Option (List Conj) := do
  let dobj ← if data_obj.original_data = none then
      convert_all bin_numeric data_obj [(Dtype.numeric, Dtype.ordinal)]
        [Dtype.nominal, Dtype.ordinal] columns
    else
      pure data_obj
  columns.foldlM (fun acc column => do
    let colData ← lookupList dobj.data column
    let vals := sortLe PyVal.leB colData.dedup
    let colPreds ← vals.mapM (fun v => mk_base_conj dobj.data column v)
    let dt ← lookupList dobj.dtypes column
    let linked := if dt = Dtype.ordinal then link_chain column colPreds else colPreds
    pure (acc ++ linked)) []

/-! Association-list lemmas shared by the claim proofs. -/

theorem lookupList_mem {α β : Type} [DecidableEq α] {l : List (α × β)} {c : α} {v : β}
    (h : lookupList l c = some v) : (c, v) ∈ l := by
  induction l with
  | nil => simp [lookupList] at h
  | cons kv t ih =>
    rw [show kv = (kv.1, kv.2) from rfl] at h ⊢
    unfold lookupList at h
    by_cases hk : kv.1 = c
    · simp [hk] at h
      simp [hk, h]
    · simp [hk] at h
      exact List.mem_cons_of_mem _ (ih h)

theorem mem_lookupList {α β : Type} [DecidableEq α] {l : List (α × β)} {c : α} {v : β}
    (hn : (keysOf l).Nodup) (h : (c, v) ∈ l) : lookupList l c = some v := by
  induction l with
  | nil => simp at h
  | cons kv t ih =>
    have hcons : keysOf (kv :: t) = kv.1 :: keysOf t := rfl
    rw [hcons] at hn
    have hn1 := (List.nodup_cons.mp hn).1
    have hn2 := (List.nodup_cons.mp hn).2
    rcases List.mem_cons.mp h with h1 | h1
    · rw [show kv = (kv.1, kv.2) from rfl]
      unfold lookupList
      have e1 : kv.1 = c := by rw [← h1]
      have e2 : kv.2 = v := by rw [← h1]
      simp [e1, e2]
    · have hk : kv.1 ≠ c := by
        intro he
        apply hn1
        rw [he]
        exact List.mem_map.mpr ⟨(c, v), h1, rfl⟩
      rw [show kv = (kv.1, kv.2) from rfl]
      unfold lookupList
      simp only [hk, if_false]
      exact ih hn2 h1

theorem lookupList_isSome_iff {α β : Type} [DecidableEq α] {l : List (α × β)} {c : α} :
    (lookupList l c).isSome = true ↔ c ∈ keysOf l := by
  induction l with
  | nil => simp [lookupList, keysOf]
  | cons kv t ih =>
    rw [show kv = (kv.1, kv.2) from rfl]
    unfold lookupList
    by_cases hk : kv.1 = c
    · simp [hk, keysOf]
    · simpa [hk, keysOf, Ne.symm hk] using ih

theorem all_eq_of_mem_iff {α : Type} {l1 l2 : List α} (h : ∀ x, x ∈ l1 ↔ x ∈ l2)
    (f : α → Bool) : l1.all f = l2.all f := by
  cases h1 : l1.all f <;> cases h2 : l2.all f <;> try rfl
  · rw [List.all_eq_false] at h1
    rw [List.all_eq_true] at h2
    obtain ⟨x, hx, hfx⟩ := h1
    exact absurd (h2 x ((h x).mp hx)) hfx
  · rw [List.all_eq_true] at h1
    rw [List.all_eq_false] at h2
    obtain ⟨x, hx, hfx⟩ := h2
    exact absurd (h1 x ((h x).mpr hx)) hfx

/-! ## Claim C10 -/

/-- C10: `insert_sorted` on an empty queue appends the predicate and returns
index 1 without ever invoking the scoring function: the resulting queue is
`[p]` with `p` itself at its head, its cached score (possibly unset) exactly
as it was — this holds uniformly in the scoring function, so the first
predicate placed into a fresh frontier, accepted, or rejected list can sit at
the head of that list with no cached score. -/
theorem c10_insert_sorted_empty_appends (score_f : Mask → ℚ) (p : Conj) :
    insert_sorted score_f [] p = some ([p], 1) := rfl

/-! ## Claim C9 -/

/-- C9: for every column and every dtype pair other than numeric→ordinal,
`convert_dtype` raises no error (it is total on this branch) and is a no-op:
the data, the dtypes map, and the shadow original data and dtypes are all
exactly as before the call. -/
theorem c9_convert_dtype_noop (bin_numeric : TabularState → String → List PyVal)
    (t : TabularState) (column : String) (old_dtype new_dtype : Dtype)
    (h : ¬(old_dtype = Dtype.numeric ∧ new_dtype = Dtype.ordinal)) :
    convert_dtype bin_numeric t column old_dtype new_dtype = t := by
  unfold convert_dtype convert_data
  simp [h]

/-- Witness for C9 at a concrete table and the pair nominal→ordinal. -/
theorem c9_witness :
    ¬(Dtype.nominal = Dtype.numeric ∧ Dtype.ordinal = Dtype.ordinal) ∧
    convert_dtype (fun _ _ => [])
      ⟨[("a", [PyVal.vint 0])], [("a", Dtype.nominal)], none, none, 15, none⟩
      "a" Dtype.nominal Dtype.ordinal =
      ⟨[("a", [PyVal.vint 0])], [("a", Dtype.nominal)], none, none, 15, none⟩ :=
  ⟨by decide, c9_convert_dtype_noop _ _ _ _ _ (by decide)⟩

/-! ## Claim C4 -/

/-- The claim's reading of conjunction equality: same columns and, for each
column, the same set of values regardless of order or multiplicity. -/
def eqAsMapsOfSets (p q : Conj) : Bool :=
  (p.columns.all (fun c => q.columns.contains c)) &&
  (q.columns.all (fun c => p.columns.contains c)) &&
  (p.column_to_values.all (fun kv =>
    match lookupList q.column_to_values kv.1 with
    | some vt => kv.2.all (fun v => vt.contains v) && vt.all (fun v => kv.2.contains v)
    | none => false))

/-- Counterexample for C4: two conjunctions over the same column whose value
lists hold the same set of values in different orders are *not* equal under
Conjunction.__eq__ (Python compares the value lists as lists), contradicting
the claim that equality coincides with equality as maps of sets. -/
theorem c4_counterexample :
    pyEq (Conj.mk [("a", [PyVal.vint 1, PyVal.vint 2])] none none none [] false none)
         (Conj.mk [("a", [PyVal.vint 2, PyVal.vint 1])] none none none [] false none) = false ∧
    eqAsMapsOfSets
      (Conj.mk [("a", [PyVal.vint 1, PyVal.vint 2])] none none none [] false none)
      (Conj.mk [("a", [PyVal.vint 2, PyVal.vint 1])] none none none [] false none) = true := by
  constructor <;> rfl

/-- C4 as amended: for conjunctions whose column maps have no duplicate
columns (every dict built by the source does), `p == q` holds iff the two
`column_to_values` maps agree as maps of *lists*: looking up any column gives
the same value list on both sides, order and multiplicity included. -/
theorem c4_eq_iff_lookup_eq (p q : Conj)
    (h1 : (keysOf p.column_to_values).Nodup)
    (h2 : (keysOf q.column_to_values).Nodup) :
    pyEq p q = true ↔
      ∀ c, lookupList p.column_to_values c = lookupList q.column_to_values c := by
  unfold pyEq dictValsEq
  rw [Bool.and_eq_true, List.all_eq_true, List.all_eq_true]
  constructor
  · rintro ⟨ha, hb⟩ c
    cases hp : lookupList p.column_to_values c with
    | some v =>
      have hm := lookupList_mem hp
      have hq' : lookupList q.column_to_values c = some v := by simpa using ha (c, v) hm
      rw [hq']
    | none =>
      cases hq : lookupList q.column_to_values c with
      | some w =>
        have hm := lookupList_mem hq
        have hp' : lookupList p.column_to_values c = some w := by simpa using hb (c, w) hm
        rw [hp] at hp'
        cases hp'
      | none => rfl
  · intro h
    constructor
    · intro kv hkv
      have : lookupList p.column_to_values kv.1 = some kv.2 := by
        rw [show kv = (kv.1, kv.2) from rfl] at hkv
        exact mem_lookupList h1 hkv
      simp [← h kv.1, this]
    · intro kv hkv
      have : lookupList q.column_to_values kv.1 = some kv.2 := by
        rw [show kv = (kv.1, kv.2) from rfl] at hkv
        exact mem_lookupList h2 hkv
      simp [h kv.1, this]

/-- Witness for C4's amended theorem at concrete equal conjunctions. -/
theorem c4_witness :
    pyEq (Conj.mk [("a", [PyVal.vint 1])] none none none [] false none)
         (Conj.mk [("a", [PyVal.vint 1])] none none none [] false none) = true ↔
      ∀ c, lookupList [("a", [PyVal.vint 1])] c = lookupList [("a", [PyVal.vint 1])] c :=
  c4_eq_iff_lookup_eq _ _ (by decide) (by decide)

/-! ## Claim C8 -/

/-- C8: merge never mutates its operands and yields a fresh derived
predicate. Whenever `p.merge(q)` returns, the post-call states of both
operands equal their pre-call states (their keys, column_to_values,
column_to_mask, mask, adjacent and cached score are exactly as before), and
the new predicate has `parents = (p, q)`, `is_base = false` and an empty
score cache. -/
theorem c8_merge_frame (p q r p1 q1 : Conj)
    (h : merge_with_operands p q = some (r, p1, q1)) :
    p1 = p ∧ q1 = q ∧ r.parents = some (p, q) ∧ r.isBase = false ∧ r.score = none := by
  unfold merge_with_operands at h
  cases hc : p.column_to_mask with
  | none => rw [hc] at h; simp at h
  | some ctm0 =>
    rw [hc] at h
    simp only [Option.pure_def, Option.bind_eq_bind, Option.some_bind] at h
    cases hst : List.foldlM (merge_step p q)
        (p.column_to_values, ctm0, p.adjacent) q.column_to_values with
    | none => rw [hst] at h; simp at h
    | some st =>
      obtain ⟨ctv, ctm, adj⟩ := st
      rw [hst] at h
      simp at h
      obtain ⟨hr, hp1, hq1⟩ := h
      refine ⟨hp1.symm, hq1.symm, ?_, ?_, ?_⟩ <;> rw [← hr] <;> rfl

/-- First operand for the C8 witness: a base predicate on column `a`. -/
def c8wp : Conj :=
  Conj.mk [("a", [PyVal.vint 0])] (some [("a", [true, false])])
    (some [true, false]) (some 1) [] true none

/-- Second operand for the C8 witness. -/
def c8wq : Conj :=
  Conj.mk [("a", [PyVal.vint 1])] (some [("a", [false, true])])
    (some [false, true]) (some 1) [] true none

/-- The merged predicate of the C8 witness operands. -/
def c8wr : Conj :=
  Conj.mk [("a", [PyVal.vint 1, PyVal.vint 0])] (some [("a", [true, true])])
    (some [true, true]) none [] false (some (c8wp, c8wq))

/-- Witness for C8: a successful concrete merge of two one-column base
predicates over a two-row table. -/
theorem c8_witness :
    merge_with_operands c8wp c8wq = some (c8wr, c8wp, c8wq) ∧
    c8wr.parents = some (c8wp, c8wq) ∧ c8wr.isBase = false ∧ c8wr.score = none :=
  ⟨rfl, (c8_merge_frame c8wp c8wq c8wr c8wp c8wq rfl).2.2⟩

/-! ## Claim C1 -/

/-- Counterexample for C1: at the initial state of a run with a set
conditional threshold — a non-empty frontier and an *empty* accepted list —
the max-score check does not complete: `get_max_score` indexes
`self.accepted[0]` and raises IndexError, and the whole loop call fails
instead of proceeding or stopping early, refuting the claim that the check
completes at every reachable loop state including the one with empty
accepted. -/
theorem c1_counterexample :
    get_max_score ⟨[Conj.mk [("a", [PyVal.vint 0])] none none (some 5) [] true none],
        [], [], []⟩ = none ∧
    get_predicates_maxiters (fun _ => 0) (fun _ => some []) none none 0 (some 0) 1
      ⟨[Conj.mk [("a", [PyVal.vint 0])] none none (some 5) [] true none], [], [], []⟩ =
      none := by
  constructor <;> rfl

/-- C1 as amended: whenever the conditional threshold is set and an iteration
of the main loop starts with a non-empty frontier, a non-empty accepted list,
cached top scores, and the iteration cap not yet reached, the iteration begins
with the max-score check and stops early with the finalised result exactly
when `max(top(frontier).score, top(accepted).score)` exceeds the threshold;
otherwise it performs the update step and continues. (The claim's further
assertion that the check also completes when accepted is empty is refuted by
`c1_counterexample`.) -/
theorem c1_early_stop_check (score_f : Mask → ℚ) (update_f : Conj → Option (List Conj))
    (predicates : Option (List Conj)) (maxiters : Option Nat) (threshold t : ℚ)
    (fuel i : Nat) (s : SearchState) (f a : Conj) (fs sa : ℚ)
    (hf : s.frontier.head? = some f) (ha : s.accepted.head? = some a)
    (hfs : f.score = some fs) (hsa : a.score = some sa)
    (hm : maxiters = none ∨ ∃ m, maxiters = some m ∧ i < m) :
    get_predicates_maxiters_loop score_f update_f predicates maxiters threshold (some t)
        (fuel + 1) i s =
      if max fs sa > t then get_predicates score_f (some t) s
      else
        (update_accepted_rejected_function score_f update_f predicates threshold s).bind
          (get_predicates_maxiters_loop score_f update_f predicates maxiters threshold
            (some t) fuel (i + 1)) := by
  have hfe : s.frontier.isEmpty = false := by
    cases hfr : s.frontier with
    | nil => rw [hfr] at hf; cases hf
    | cons x xs => rfl
  have hms : get_max_score s = some (max fs sa) := by
    unfold get_max_score
    rw [hf, ha]
    simp [hfs, hsa]
  rcases hm with hm | ⟨m, hm, him⟩ <;> subst hm
  · simp only [get_predicates_maxiters_loop, hfe, Bool.not_false, Bool.true_and, if_true,
      hms, Option.pure_def, Option.bind_eq_bind, Option.some_bind]
  · have hd : decide (i < m) = true := decide_eq_true him
    simp only [get_predicates_maxiters_loop, hfe, Bool.not_false, Bool.true_and, hd,
      if_true, hms, Option.pure_def, Option.bind_eq_bind, Option.some_bind]

/-- Witness for C1's amended theorem at a concrete one-predicate state. -/
theorem c1_witness :
    get_predicates_maxiters_loop (fun _ => 0) (fun _ => some []) none none 0 (some 2)
        (0 + 1) 0
        ⟨[Conj.mk [("a", [PyVal.vint 0])] none none (some 5) [] true none],
          [Conj.mk [("b", [PyVal.vint 0])] none none (some 3) [] true none], [], []⟩ =
      if max 5 3 > 2 then
        get_predicates (fun _ => 0) (some 2)
          ⟨[Conj.mk [("a", [PyVal.vint 0])] none none (some 5) [] true none],
            [Conj.mk [("b", [PyVal.vint 0])] none none (some 3) [] true none], [], []⟩
      else
        (update_accepted_rejected_function (fun _ => 0) (fun _ => some []) none 0
            ⟨[Conj.mk [("a", [PyVal.vint 0])] none none (some 5) [] true none],
              [Conj.mk [("b", [PyVal.vint 0])] none none (some 3) [] true none], [], []⟩).bind
          (get_predicates_maxiters_loop (fun _ => 0) (fun _ => some []) none none 0
            (some 2) 0 (0 + 1)) :=
  c1_early_stop_check (fun _ => 0) (fun _ => some []) none none 0 2 0 0
    ⟨[Conj.mk [("a", [PyVal.vint 0])] none none (some 5) [] true none],
      [Conj.mk [("b", [PyVal.vint 0])] none none (some 3) [] true none], [], []⟩
    (Conj.mk [("a", [PyVal.vint 0])] none none (some 5) [] true none)
    (Conj.mk [("b", [PyVal.vint 0])] none none (some 3) [] true none)
    5 3 rfl rfl rfl rfl (Or.inl rfl)

/-! ## Claim C3 -/

/-- Bool form of "a subsumes c" as tested by update_frontier's inner loop:
containment together with a strictly greater cached score. -/
def subsumesB (a c : Conj) : Bool :=
  c.is_contained a none &&
    (match a.score, c.score with
     | some sa, some sc => decide (sa > sc)
     | _, _ => false)

/-- The first accepted predicate that subsumes the child, as located by the
inner while-loop of update_frontier (it stops at the first hit, so
`subsuming_keys` are that predicate's keys). -/
def first_subsumer (accepted : List Conj) (child : Conj) : Option Conj :=
  accepted.find? (fun a => subsumesB a child)

/-- The claim's formula for the `all_children_subsumed` flag: non-empty
children, every child scoring above the parent subsumed by some accepted
predicate, and the subsuming accepted predicates' keys jointly covering every
key of the parent. -/
def all_children_subsumed_spec (accepted : List Conj) (parent : Conj)
    (children : List Conj) : Bool :=
  decide (0 < children.length) &&
  children.all (fun c =>
    match c.score, parent.score with
    | some sc, some sp => !(decide (sc > sp)) || accepted.any (fun a => subsumesB a c)
    | _, _ => false) &&
  parent.keys.all (fun k =>
    children.any (fun c => accepted.any (fun a => subsumesB a c && a.keys.contains k)))

/-- Counterexample for C3: a parent on columns a and b with one child that
scores above it and is subsumed by an accepted predicate whose only key is a.
The code's flag is true (the inner `any` only asks that the subsumer share
*some* key with the parent), while the claim's formula is false (the
subsumer's keys do not cover the parent's key b), refuting the claimed
if-and-only-if. -/
theorem c3_counterexample :
    update_frontier (fun _ => 0)
        [Conj.mk [("a", [PyVal.vint 0])] none none (some 5) [] false none] []
        (Conj.mk [("a", [PyVal.vint 0]), ("b", [PyVal.vint 0])] none none (some 1) [] false none)
        [Conj.mk [("a", [PyVal.vint 0]), ("b", [PyVal.vint 0]), ("c", [PyVal.vint 0])]
          none none (some 2) [] false none] =
      some ([], true, true) ∧
    all_children_subsumed_spec
        [Conj.mk [("a", [PyVal.vint 0])] none none (some 5) [] false none]
        (Conj.mk [("a", [PyVal.vint 0]), ("b", [PyVal.vint 0])] none none (some 1) [] false none)
        [Conj.mk [("a", [PyVal.vint 0]), ("b", [PyVal.vint 0]), ("c", [PyVal.vint 0])]
          none none (some 2) [] false none] = false := by
  constructor <;> rfl

theorem find_subsumer_eq_first {child : Conj} {cs : ℚ} {accepted : List Conj}
    (hacc : ∀ a ∈ accepted, a.score.isSome) (hc : child.score = some cs) :
    find_subsumer child cs accepted = some (first_subsumer accepted child) := by
  induction accepted with
  | nil => rfl
  | cons a t ih =>
    have ha := hacc a (List.mem_cons_self a t)
    obtain ⟨sa, hsa⟩ := Option.isSome_iff_exists.mp ha
    have ht : ∀ x ∈ t, x.score.isSome := fun x hx => hacc x (List.mem_cons_of_mem _ hx)
    have hstep : find_subsumer child cs (a :: t) =
        (if child.is_contained a none = true then
          match a.score with
          | some sa1 => if sa1 > cs then some (some a) else find_subsumer child cs t
          | none => none
        else find_subsumer child cs t) := rfl
    have hfind : first_subsumer (a :: t) child =
        (if subsumesB a child then some a else first_subsumer t child) := by
      unfold first_subsumer
      rw [List.find?_cons]
      cases hsub : subsumesB a child <;> simp
    rw [hstep, hfind]
    by_cases hcont : child.is_contained a none = true
    · by_cases hgt : sa > cs
      · have hsub : subsumesB a child = true := by
          unfold subsumesB
          rw [hcont, hsa, hc]
          simp [hgt]
        rw [if_pos hcont, hsa]
        simp [hsub, hgt]
      · have hsub : subsumesB a child = false := by
          unfold subsumesB
          rw [hcont, hsa, hc]
          simp [hgt]
        rw [if_pos hcont, hsa]
        simp only [hsub, Bool.false_eq_true, if_false]
        rw [if_neg hgt]
        exact ih ht
    · have hcf : child.is_contained a none = false := Bool.eq_false_iff.mpr hcont
      have hsub : subsumesB a child = false := by
        unfold subsumesB
        rw [hcf]
        rfl
      rw [if_neg hcont]
      simp only [hsub, Bool.false_eq_true, if_false]
      exact ih ht

theorem insert_sorted_scan_cached {score_f : Mask → ℚ} {p1 : Conj} {s : ℚ}
    (hp : p1.score.isSome) :
    ∀ (q : List Conj) (i : Nat), (∀ x ∈ q, x.score.isSome) →
      ∃ l j, insert_sorted_scan score_f p1 s q i = some (l, j) ∧
        ∀ x ∈ l, x.score.isSome := by
  intro q
  induction q with
  | nil =>
    intro i _
    exact ⟨[p1], i + 1, rfl, by simpa using hp⟩
  | cons q t ih =>
    intro i hq
    have hq0 := hq q (List.mem_cons_self q t)
    obtain ⟨qs, hqs⟩ := Option.isSome_iff_exists.mp hq0
    have hget : q.get_score_cached score_f = some (q, qs) := by
      unfold Conj.get_score_cached
      rw [hqs]
    have ht : ∀ x ∈ t, x.score.isSome := fun x hx => hq x (List.mem_cons_of_mem _ hx)
    have hstep : insert_sorted_scan score_f p1 s (q :: t) i =
        (do
          let (q1, qs1) ← q.get_score_cached score_f
          if s > qs1 then
            pure (p1 :: q1 :: t, i)
          else do
            let (l, j) ← insert_sorted_scan score_f p1 s t (i + 1)
            pure (q1 :: l, j)) := rfl
    rw [hstep, hget]
    simp only [Option.pure_def, Option.bind_eq_bind, Option.some_bind]
    by_cases hgt : s > qs
    · rw [if_pos hgt]
      refine ⟨p1 :: q :: t, i, rfl, ?_⟩
      intro x hx
      rcases List.mem_cons.mp hx with h | h
      · subst h; exact hp
      · exact hq x h
    · rw [if_neg hgt]
      obtain ⟨l, j, hl, hall⟩ := ih (i + 1) ht
      rw [hl]
      simp only [Option.some_bind]
      refine ⟨q :: l, j, rfl, ?_⟩
      intro x hx
      rcases List.mem_cons.mp hx with h | h
      · subst h; exact hq0
      · exact hall x h

theorem insert_sorted_cached {score_f : Mask → ℚ} {queue : List Conj} {p : Conj}
    (hq : ∀ x ∈ queue, x.score.isSome) (hp : p.score.isSome) :
    ∃ l j, insert_sorted score_f queue p = some (l, j) ∧ ∀ x ∈ l, x.score.isSome := by
  cases queue with
  | nil => exact ⟨[p], 1, rfl, by simpa using hp⟩
  | cons q t =>
    obtain ⟨s, hs⟩ := Option.isSome_iff_exists.mp hp
    have hget : p.get_score_cached score_f = some (p, s) := by
      unfold Conj.get_score_cached
      rw [hs]
    have hstep : insert_sorted score_f (q :: t) p =
        (do
          let (p1, s1) ← p.get_score_cached score_f
          insert_sorted_scan score_f p1 s1 (q :: t) 0) := rfl
    rw [hstep, hget]
    simp only [Option.pure_def, Option.bind_eq_bind, Option.some_bind]
    exact insert_sorted_scan_cached hp (q :: t) 0 hq

/-- Per-child condition under which update_frontier's loop leaves the
`all_children_subsumed` flag intact: the child scores strictly above the
parent, the inner loop finds a subsumer, and that first subsumer shares at
least one key with the parent. -/
def child_keeps_flag (accepted : List Conj) (parent : Conj) (sp : ℚ) (c : Conj) : Bool :=
  (match c.score with
   | some sc => decide (sc > sp)
   | none => false) &&
  (match first_subsumer accepted c with
   | some a => parent.keys.any (fun k => a.keys.contains k)
   | none => false)

theorem update_frontier_fold {score_f : Mask → ℚ} {accepted : List Conj} {parent : Conj}
    {sp : ℚ} (hp : parent.score = some sp)
    (hacc : ∀ a ∈ accepted, a.score.isSome) :
    ∀ (children : List Conj) (d b : Bool) (fr : List Conj),
      (∀ c ∈ children, c.score.isSome) → (∀ x ∈ fr, x.score.isSome) →
      ∃ d1 b1 fr1,
        children.foldlM (uf_step score_f accepted parent) (d, b, fr) = some (d1, b1, fr1) ∧
        b1 = (b && children.all (child_keeps_flag accepted parent sp)) ∧
        (∀ x ∈ fr1, x.score.isSome) := by
  intro children
  induction children with
  | nil =>
    intro d b fr _ hfr
    exact ⟨d, b, fr, rfl, by simp, hfr⟩
  | cons c t ih =>
    intro d b fr hch hfr
    have hc0 := hch c (List.mem_cons_self c t)
    obtain ⟨sc, hsc⟩ := Option.isSome_iff_exists.mp hc0
    have hct : ∀ x ∈ t, x.score.isSome := fun x hx => hch x (List.mem_cons_of_mem _ hx)
    have hfold : (c :: t).foldlM (uf_step score_f accepted parent) (d, b, fr) =
        (uf_step score_f accepted parent (d, b, fr) c).bind
          (t.foldlM (uf_step score_f accepted parent)) := by
      rfl
    rw [hfold]
    by_cases hgt : sc > sp
    · cases hfs : first_subsumer accepted c with
      | none =>
        obtain ⟨l, j, hl, hall⟩ := @insert_sorted_cached score_f fr c hfr hc0
        have hval : uf_step score_f accepted parent (d, b, fr) c = some (false, false, l) := by
          unfold uf_step
          simp [hsc, hp, hgt, find_subsumer_eq_first hacc hsc, hfs, hl]
        rw [hval]
        simp only [Option.some_bind]
        obtain ⟨d1, b1, fr1, hf, hb, hfr1⟩ := ih false false l hct hall
        refine ⟨d1, b1, fr1, hf, ?_, hfr1⟩
        have hck : child_keeps_flag accepted parent sp c = false := by
          unfold child_keeps_flag
          rw [hfs]
          simp
        rw [hb]
        simp [hck]
      | some a =>
        by_cases hshares : parent.keys.any (fun k => a.keys.contains k) = true
        · have hval : uf_step score_f accepted parent (d, b, fr) c = some (d, b, fr) := by
            unfold uf_step
            simp [hsc, hp, hgt, find_subsumer_eq_first hacc hsc, hfs, hshares]
            intro hnone
            rw [List.any_eq_true] at hshares
            obtain ⟨k, hk, hka⟩ := hshares
            exact absurd (by simpa using hka) (hnone k hk)
          rw [hval]
          simp only [Option.some_bind]
          obtain ⟨d1, b1, fr1, hf, hb, hfr1⟩ := ih d b fr hct hfr
          refine ⟨d1, b1, fr1, hf, ?_, hfr1⟩
          have hck : child_keeps_flag accepted parent sp c = true := by
            unfold child_keeps_flag
            rw [hfs, hsc]
            simp [hgt]
            rw [List.any_eq_true] at hshares
            obtain ⟨k, hk, hka⟩ := hshares
            exact ⟨k, hk, by simpa using hka⟩
          rw [hb]
          simp [hck, Bool.and_assoc]
        · have hsharesf : parent.keys.any (fun k => a.keys.contains k) = false :=
            Bool.eq_false_iff.mpr hshares
          have hval : uf_step score_f accepted parent (d, b, fr) c = some (d, false, fr) := by
            unfold uf_step
            simp [hsc, hp, hgt, find_subsumer_eq_first hacc hsc, hfs, hsharesf]
            rw [List.any_eq_false] at hsharesf
            intro k hk hka
            exact absurd hka (by simpa using hsharesf k hk)
          rw [hval]
          simp only [Option.some_bind]
          obtain ⟨d1, b1, fr1, hf, hb, hfr1⟩ := ih d false fr hct hfr
          refine ⟨d1, b1, fr1, hf, ?_, hfr1⟩
          have hck : child_keeps_flag accepted parent sp c = false := by
            unfold child_keeps_flag
            rw [hfs, hsc]
            simp [hgt]
            rw [List.any_eq_false] at hsharesf
            intro k hk
            simpa using hsharesf k hk
          rw [hb]
          simp [hck]
    · have hval : uf_step score_f accepted parent (d, b, fr) c = some (d, false, fr) := by
        unfold uf_step
        simp [hsc, hp, hgt]
      rw [hval]
      simp only [Option.some_bind]
      obtain ⟨d1, b1, fr1, hf, hb, hfr1⟩ := ih d false fr hct hfr
      refine ⟨d1, b1, fr1, hf, ?_, hfr1⟩
      have hck : child_keeps_flag accepted parent sp c = false := by
        unfold child_keeps_flag
        rw [hsc]
        simp [hgt]
      rw [hb]
      simp [hck]

/-- C3 as amended: update_frontier returns `all_children_subsumed = true` iff
the child list is non-empty and every child scores strictly above the parent,
is subsumed by some accepted predicate, and the *first* subsuming accepted
predicate found shares *at least one* key with the parent. (The claim's
stronger reading — the subsuming predicates' keys covering *every* key of the
parent — is refuted by `c3_counterexample`.) -/
theorem c3_all_children_subsumed_iff (score_f : Mask → ℚ)
    (accepted frontier : List Conj) (parent : Conj) (children : List Conj) (sp : ℚ)
    (hp : parent.score = some sp)
    (hch : ∀ c ∈ children, c.score.isSome)
    (hacc : ∀ a ∈ accepted, a.score.isSome)
    (hfr : ∀ x ∈ frontier, x.score.isSome) :
    ∃ fr1 isDone flag,
      update_frontier score_f accepted frontier parent children = some (fr1, isDone, flag) ∧
      (flag = true ↔ children ≠ [] ∧ ∀ c ∈ children, ∃ sc, c.score = some sc ∧ sc > sp ∧
        ∃ a, first_subsumer accepted c = some a ∧
          parent.keys.any (fun k => a.keys.contains k) = true) := by
  obtain ⟨d1, b1, fr1, hfold, hb, _⟩ :=
    update_frontier_fold hp hacc children true (decide (0 < children.length)) frontier hch hfr
  refine ⟨fr1, d1, b1, ?_, ?_⟩
  · unfold update_frontier
    rw [hfold]
    rfl
  · rw [hb]
    rw [Bool.and_eq_true, List.all_eq_true]
    constructor
    · rintro ⟨hlen, hall⟩
      refine ⟨?_, ?_⟩
      · have : 0 < children.length := of_decide_eq_true hlen
        intro he
        rw [he] at this
        simp at this
      · intro c hc
        have hck := hall c hc
        unfold child_keeps_flag at hck
        rw [Bool.and_eq_true] at hck
        obtain ⟨sc, hsc⟩ := Option.isSome_iff_exists.mp (hch c hc)
        refine ⟨sc, hsc, ?_, ?_⟩
        · have := hck.1
          rw [hsc] at this
          exact of_decide_eq_true this
        · cases hfs : first_subsumer accepted c with
          | none =>
            have := hck.2
            rw [hfs] at this
            cases this
          | some a =>
            have := hck.2
            rw [hfs] at this
            exact ⟨a, rfl, this⟩
    · rintro ⟨hne, hall⟩
      refine ⟨?_, ?_⟩
      · apply decide_eq_true
        cases children with
        | nil => exact absurd rfl hne
        | cons x xs => simp
      · intro c hc
        obtain ⟨sc, hsc, hgt, a, hfs, hshares⟩ := hall c hc
        unfold child_keeps_flag
        rw [hsc, hfs]
        simp [hgt]
        rw [List.any_eq_true] at hshares
        obtain ⟨k, hk, hka⟩ := hshares
        exact ⟨k, hk, by simpa using hka⟩

/-- Witness for C3's amended theorem: one child scoring above its parent,
subsumed by an accepted predicate sharing the parent's only key. -/
theorem c3_witness :
    ∃ fr1 isDone flag,
      update_frontier (fun _ => 0)
          [Conj.mk [("a", [PyVal.vint 0, PyVal.vint 1])] none none (some 5) [] false none]
          [] (Conj.mk [("a", [PyVal.vint 0])] none none (some 1) [] false none)
          [Conj.mk [("a", [PyVal.vint 0])] none none (some 2) [] false none] =
        some (fr1, isDone, flag) ∧
      (flag = true ↔
        [Conj.mk [("a", [PyVal.vint 0])] none none (some 2) [] false none] ≠ [] ∧
        ∀ c ∈ [Conj.mk [("a", [PyVal.vint 0])] none none (some 2) [] false none],
          ∃ sc, c.score = some sc ∧ sc > 1 ∧
          ∃ a, first_subsumer
              [Conj.mk [("a", [PyVal.vint 0, PyVal.vint 1])] none none (some 5) [] false none]
              c = some a ∧
            (Conj.mk [("a", [PyVal.vint 0])] none none (some 1) [] false none).keys.any
              (fun k => a.keys.contains k) = true) :=
  c3_all_children_subsumed_iff (fun _ => 0)
    [Conj.mk [("a", [PyVal.vint 0, PyVal.vint 1])] none none (some 5) [] false none]
    [] (Conj.mk [("a", [PyVal.vint 0])] none none (some 1) [] false none)
    [Conj.mk [("a", [PyVal.vint 0])] none none (some 2) [] false none] 1
    rfl (by decide) (by decide) (by decide)

/-! ## Claim C6 -/

/-- Strictly greater cached score (false when either cache is unset). -/
def scoreGtB (p q : Conj) : Bool :=
  match p.score, q.score with
  | some a, some b => decide (a > b)
  | _, _ => false

/-- Greater-or-equal cached score (false when either cache is unset). -/
def scoreGeB (p q : Conj) : Bool :=
  match p.score, q.score with
  | some a, some b => decide (a ≥ b)
  | _, _ => false

/-- Sorted by cached score, descending: the order insert_sorted maintains. -/
def sortedDesc (l : List Conj) : Prop :=
  l.Chain' (fun p q => scoreGeB p q = true)

/-- Counterexample for C6: A = [a] (score 5, columns x,y), C = [c1 (score 7,
column x, with a ⊑ c1), c2 (score 3, columns x,y,z, with c2 ⊑ a)]. In the
related pair (a, c2) the strictly higher-scoring member is a, which the claim
says is kept — but the result is [c1]: a was dropped through its other pair
(a, c1), so the claim's per-pair "the strictly higher-scoring one is kept" is
false as stated. -/
theorem c6_counterexample :
    merge_predicates (fun _ => 0)
        [Conj.mk [("x", [PyVal.vint 0]), ("y", [PyVal.vint 0])] none none (some 5) [] false none]
        [Conj.mk [("x", [PyVal.vint 0])] none none (some 7) [] false none,
         Conj.mk [("x", [PyVal.vint 0]), ("y", [PyVal.vint 0]), ("z", [PyVal.vint 0])]
           none none (some 3) [] false none] =
      some [Conj.mk [("x", [PyVal.vint 0])] none none (some 7) [] false none] ∧
    pair_related
      (Conj.mk [("x", [PyVal.vint 0]), ("y", [PyVal.vint 0])] none none (some 5) [] false none)
      (Conj.mk [("x", [PyVal.vint 0]), ("y", [PyVal.vint 0]), ("z", [PyVal.vint 0])]
        none none (some 3) [] false none) = true ∧
    scoreGtB
      (Conj.mk [("x", [PyVal.vint 0]), ("y", [PyVal.vint 0])] none none (some 5) [] false none)
      (Conj.mk [("x", [PyVal.vint 0]), ("y", [PyVal.vint 0]), ("z", [PyVal.vint 0])]
        none none (some 3) [] false none) = true ∧
    (merge_predicates (fun _ => 0)
        [Conj.mk [("x", [PyVal.vint 0]), ("y", [PyVal.vint 0])] none none (some 5) [] false none]
        [Conj.mk [("x", [PyVal.vint 0])] none none (some 7) [] false none,
         Conj.mk [("x", [PyVal.vint 0]), ("y", [PyVal.vint 0]), ("z", [PyVal.vint 0])]
           none none (some 3) [] false none]).map
      (fun l => l.any (pyEq
        (Conj.mk [("x", [PyVal.vint 0]), ("y", [PyVal.vint 0])] none none (some 5) [] false none))) =
      some false :=
  ⟨rfl, rfl, rfl, rfl⟩

theorem getD_set_bool {l : List Bool} {k j : Nat} {v : Bool} :
    (l.set k v).getD j false =
      (if k = j ∧ k < l.length then v else l.getD j false) := by
  rw [List.getD_eq_getElem?_getD, List.getD_eq_getElem?_getD, List.getElem?_set]
  by_cases h1 : k = j
  · subst h1
    by_cases h2 : k < l.length
    · simp [h2]
    · rw [List.getElem?_eq_none (by omega)]
      simp [h2]
  · simp [h1]

theorem any_congr_mem {α : Type} {l : List α} {f g : α → Bool}
    (h : ∀ x ∈ l, f x = g x) : l.any f = l.any g := by
  induction l with
  | nil => rfl
  | cons a t ih =>
    simp only [List.any_cons]
    rw [h a (List.mem_cons_self a t), ih (fun x hx => h x (List.mem_cons_of_mem _ hx))]

theorem enumFrom_any_at {α : Type} (g : α → Bool) :
    ∀ (l : List α) (n i : Nat),
      ((l.enumFrom n).any (fun ia => decide (ia.1 = i) && g ia.2)) =
        (if n ≤ i then
          (match l.get? (i - n) with | some x => g x | none => false)
        else false) := by
  intro l
  induction l with
  | nil =>
    intro n i
    simp only [List.enumFrom_nil, List.any_nil, List.get?_nil]
    split <;> rfl
  | cons a t ih =>
    intro n i
    simp only [List.enumFrom_cons, List.any_cons]
    by_cases hni : n = i
    · subst hni
      have h1 : ¬(n + 1 ≤ n) := by omega
      rw [ih, if_neg h1, if_pos (Nat.le_refl n)]
      simp [Nat.sub_self]
    · rw [ih]
      by_cases hle : n ≤ i
      · have hlt : n + 1 ≤ i := by omega
        rw [if_pos hlt, if_pos hle]
        have hsub : i - n = (i - (n + 1)) + 1 := by omega
        rw [hsub]
        simp [hni]
      · have h2 : ¬(n + 1 ≤ i) := by omega
        rw [if_neg h2, if_neg hle]
        simp [hni]

theorem enum_any_at {α : Type} (g : α → Bool) (l : List α) (i : Nat) :
    (l.enum.any (fun ia => decide (ia.1 = i) && g ia.2)) =
      (match l.get? i with | some x => g x | none => false) := by
  have := enumFrom_any_at g l 0 i
  simp only [List.enum] at *
  rw [this, if_pos (Nat.zero_le i)]
  rfl

theorem enumFrom_any_snd {α : Type} (h : α → Bool) :
    ∀ (l : List α) (n : Nat), ((l.enumFrom n).any (fun ia => h ia.2)) = l.any h := by
  intro l
  induction l with
  | nil => intro n; rfl
  | cons a t ih =>
    intro n
    simp only [List.enumFrom_cons, List.any_cons, ih]

theorem enum_any_snd {α : Type} (h : α → Bool) (l : List α) :
    (l.enum.any (fun ia => h ia.2)) = l.any h :=
  enumFrom_any_snd h l 0

theorem insert_sorted_scan_spec {score_f : Mask → ℚ} {p1 : Conj} {s : ℚ}
    (hp : p1.score = some s) :
    ∀ (q : List Conj) (i : Nat), (∀ x ∈ q, x.score.isSome) →
      ∃ l j, insert_sorted_scan score_f p1 s q i = some (l, j) ∧
        (∀ y, y ∈ l ↔ y = p1 ∨ y ∈ q) ∧
        (∀ x ∈ l, x.score.isSome) ∧
        (l.head? = some p1 ∨ l.head? = q.head?) ∧
        (List.Chain' (fun u v => scoreGeB u v = true) q →
          List.Chain' (fun u v => scoreGeB u v = true) l) := by
  intro q
  induction q with
  | nil =>
    intro i _
    refine ⟨[p1], i + 1, rfl, ?_, ?_, Or.inl rfl, ?_⟩
    · intro y; simp
    · intro x hx
      rw [List.mem_singleton.mp hx, hp]
      rfl
    · intro _
      exact List.chain'_singleton p1
  | cons q t ih =>
    intro i hq
    have hq0 := hq q (List.mem_cons_self q t)
    obtain ⟨qs, hqs⟩ := Option.isSome_iff_exists.mp hq0
    have hget : q.get_score_cached score_f = some (q, qs) := by
      unfold Conj.get_score_cached
      rw [hqs]
    have ht : ∀ x ∈ t, x.score.isSome := fun x hx => hq x (List.mem_cons_of_mem _ hx)
    have hstep : insert_sorted_scan score_f p1 s (q :: t) i =
        (do
          let (q1, qs1) ← q.get_score_cached score_f
          if s > qs1 then
            pure (p1 :: q1 :: t, i)
          else do
            let (l, j) ← insert_sorted_scan score_f p1 s t (i + 1)
            pure (q1 :: l, j)) := rfl
    rw [hstep, hget]
    simp only [Option.pure_def, Option.bind_eq_bind, Option.some_bind]
    by_cases hgt : s > qs
    · rw [if_pos hgt]
      refine ⟨p1 :: q :: t, i, rfl, ?_, ?_, Or.inl rfl, ?_⟩
      · intro y
        simp [List.mem_cons]
      · intro x hx
        rcases List.mem_cons.mp hx with h | h
        · rw [h, hp]; rfl
        · exact hq x h
      · intro hch
        refine List.chain'_cons'.mpr ⟨?_, hch⟩
        intro y hy
        have : y = q := by
          have h1 : q = y := by simpa using hy
          exact h1.symm
        rw [this]
        unfold scoreGeB
        rw [hp, hqs]
        simp
        exact le_of_lt hgt
    · rw [if_neg hgt]
      obtain ⟨l, j, hl, hmem, hsome, hhead, hchain⟩ := ih (i + 1) ht
      rw [hl]
      simp only [Option.some_bind]
      refine ⟨q :: l, j, rfl, ?_, ?_, Or.inr rfl, ?_⟩
      · intro y
        simp only [List.mem_cons]
        rw [hmem y]
        tauto
      · intro x hx
        rcases List.mem_cons.mp hx with h | h
        · rw [h]; exact hq0
        · exact hsome x h
      · intro hch
        have hcht := (List.chain'_cons'.mp hch).2
        refine List.chain'_cons'.mpr ⟨?_, hchain hcht⟩
        intro y hy
        rcases hhead with hh | hh
        · rw [hh] at hy
          have : y = p1 := by
            have h1 : p1 = y := by simpa using hy
            exact h1.symm
          rw [this]
          unfold scoreGeB
          rw [hqs, hp]
          simp
          exact le_of_not_lt hgt
        · rw [hh] at hy
          exact (List.chain'_cons'.mp hch).1 y hy

theorem insert_sorted_spec {score_f : Mask → ℚ} {queue : List Conj} {p : Conj} {s : ℚ}
    (hq : ∀ x ∈ queue, x.score.isSome) (hp : p.score = some s) :
    ∃ l j, insert_sorted score_f queue p = some (l, j) ∧
      (∀ y, y ∈ l ↔ y = p ∨ y ∈ queue) ∧ (∀ x ∈ l, x.score.isSome) ∧
      (sortedDesc queue → sortedDesc l) := by
  cases queue with
  | nil =>
    refine ⟨[p], 1, rfl, ?_, ?_, ?_⟩
    · intro y; simp
    · intro x hx
      rw [List.mem_singleton.mp hx, hp]
      rfl
    · intro _
      exact List.chain'_singleton p
  | cons q t =>
    have hget : p.get_score_cached score_f = some (p, s) := by
      unfold Conj.get_score_cached
      rw [hp]
    have hstep : insert_sorted score_f (q :: t) p =
        (do
          let (p1, s1) ← p.get_score_cached score_f
          insert_sorted_scan score_f p1 s1 (q :: t) 0) := rfl
    rw [hstep, hget]
    simp only [Option.pure_def, Option.bind_eq_bind, Option.some_bind]
    obtain ⟨l, j, hl, hmem, hsome, _, hchain⟩ := insert_sorted_scan_spec hp (q :: t) 0 hq
    exact ⟨l, j, hl, hmem, hsome, hchain⟩

theorem mp_pair_fold {a : Conj} {sa : ℚ} (hsa : a.score = some sa) (i : Nat) :
    ∀ (lb : List (Nat × Conj)) (f1 f2 : List Bool),
      (∀ jb ∈ lb, (jb.2).score.isSome) →
      ∃ f1' f2', lb.foldlM (mp_pair_step a i) (f1, f2) = some (f1', f2') ∧
        f1' = (if lb.any (fun jb => pair_related a jb.2 && scoreGtB jb.2 a) then
                f1.set i false else f1) ∧
        f2'.length = f2.length ∧
        (∀ j, f2'.getD j false = (f2.getD j false &&
          !(lb.any (fun jb => decide (jb.1 = j) && decide (jb.1 < f2.length) &&
            (pair_related a jb.2 && scoreGeB a jb.2))))) := by
  intro lb
  induction lb with
  | nil =>
    intro f1 f2 _
    refine ⟨f1, f2, rfl, by simp, rfl, ?_⟩
    intro j
    simp
  | cons jb lb ih =>
    intro f1 f2 hlb
    have hjb := hlb jb (List.mem_cons_self jb lb)
    obtain ⟨sb, hsb⟩ := Option.isSome_iff_exists.mp hjb
    have hlt : ∀ x ∈ lb, (x.2).score.isSome := fun x hx => hlb x (List.mem_cons_of_mem _ hx)
    have hfold : (jb :: lb).foldlM (mp_pair_step a i) (f1, f2) =
        (mp_pair_step a i (f1, f2) jb).bind (lb.foldlM (mp_pair_step a i)) := rfl
    rw [hfold]
    by_cases hrel : pair_related a jb.2 = true
    · by_cases hge : sa ≥ sb
      · have hgtB : scoreGtB jb.2 a = false := by
          unfold scoreGtB
          rw [hsb, hsa]
          simp
          linarith
        have hgeB : scoreGeB a jb.2 = true := by
          unfold scoreGeB
          rw [hsa, hsb]
          simpa using hge
        have hval : mp_pair_step a i (f1, f2) jb = some (f1, f2.set jb.1 false) := by
          unfold mp_pair_step
          simp [hrel, hsa, hsb, hge]
        rw [hval]
        simp only [Option.some_bind]
        obtain ⟨f1', f2', hf, h1, hlen, h2⟩ := ih f1 (f2.set jb.1 false) hlt
        refine ⟨f1', f2', hf, ?_, by simpa using hlen, ?_⟩
        · rw [h1, List.any_cons, hrel, hgtB]
          simp only [Bool.true_and, Bool.and_false, Bool.false_or]
        · intro j
          rw [h2 j, getD_set_bool, List.any_cons, hrel, hgeB]
          simp only [List.length_set, Bool.true_and, Bool.and_true]
          by_cases hj1 : jb.1 = j
          · by_cases hj2 : jb.1 < f2.length
            · rw [if_pos ⟨hj1, hj2⟩, decide_eq_true hj1, decide_eq_true hj2]
              simp only [Bool.false_and, Bool.true_and, Bool.true_or, Bool.not_true,
                Bool.and_false]
            · rw [if_neg (fun h => hj2 h.2), decide_eq_false hj2]
              simp only [Bool.and_false, Bool.false_or]
          · rw [if_neg (fun h => hj1 h.1), decide_eq_false hj1]
            simp only [Bool.false_and, Bool.false_or]
      · have hge2 : sb ≥ sa := le_of_lt (lt_of_not_ge hge)
        have hgtB : scoreGtB jb.2 a = true := by
          unfold scoreGtB
          rw [hsb, hsa]
          simpa using lt_of_not_ge hge
        have hgeB : scoreGeB a jb.2 = false := by
          unfold scoreGeB
          rw [hsa, hsb]
          simpa using hge
        have hval : mp_pair_step a i (f1, f2) jb = some (f1.set i false, f2) := by
          unfold mp_pair_step
          simp [hrel, hsa, hsb, hge, hge2]
        rw [hval]
        simp only [Option.some_bind]
        obtain ⟨f1', f2', hf, h1, hlen, h2⟩ := ih (f1.set i false) f2 hlt
        refine ⟨f1', f2', hf, ?_, hlen, ?_⟩
        · rw [h1]
          simp only [List.any_cons, hrel, hgtB, Bool.true_and, Bool.true_or, if_true]
          split <;> simp [List.set_set]
        · intro j
          rw [h2 j]
          simp [List.any_cons, hgeB]
    · have hrelf : pair_related a jb.2 = false := Bool.eq_false_iff.mpr hrel
      have hval : mp_pair_step a i (f1, f2) jb = some (f1, f2) := by
        unfold mp_pair_step
        simp [hrelf]
      rw [hval]
      simp only [Option.some_bind]
      obtain ⟨f1', f2', hf, h1, hlen, h2⟩ := ih f1 f2 hlt
      refine ⟨f1', f2', hf, ?_, hlen, ?_⟩
      · rw [h1, List.any_cons, hrelf]
        simp only [Bool.false_and, Bool.false_or]
      · intro j
        rw [h2 j, List.any_cons, hrelf]
        simp only [Bool.false_and, Bool.and_false, Bool.false_or]

theorem snd_mem_of_mem_enum {α : Type} {l : List α} {x : Nat × α} (h : x ∈ l.enum) :
    x.2 ∈ l := by
  rw [List.mem_enum_iff_getElem?] at h
  exact List.getElem?_mem h

theorem fst_lt_of_mem_enum {α : Type} {l : List α} {x : Nat × α} (h : x ∈ l.enum) :
    x.1 < l.length := by
  rw [List.mem_enum_iff_getElem?] at h
  exact (List.getElem?_eq_some_iff.mp h).1

theorem mp_flags_fold {B : List Conj} (hB : ∀ b ∈ B, b.score.isSome) :
    ∀ (la : List (Nat × Conj)) (f1 f2 : List Bool), f2.length = B.length →
      (∀ ia ∈ la, (ia.2).score.isSome) →
      ∃ f1' f2', la.foldlM (mp_flags_step B) (f1, f2) = some (f1', f2') ∧
        f1'.length = f1.length ∧ f2'.length = f2.length ∧
        (∀ i, f1'.getD i false = (f1.getD i false &&
          !(la.any (fun ia => decide (ia.1 = i) && decide (ia.1 < f1.length) &&
            B.any (fun b => pair_related ia.2 b && scoreGtB b ia.2))))) ∧
        (∀ j, f2'.getD j false = (f2.getD j false &&
          !(la.any (fun ia => B.enum.any (fun jb => decide (jb.1 = j) &&
            (pair_related ia.2 jb.2 && scoreGeB ia.2 jb.2)))))) := by
  intro la
  induction la with
  | nil =>
    intro f1 f2 _ _
    refine ⟨f1, f2, rfl, rfl, rfl, ?_, ?_⟩ <;> intro j <;> simp
  | cons ia la ih =>
    intro f1 f2 hf2len hla
    have hia := hla ia (List.mem_cons_self ia la)
    obtain ⟨sa, hsa⟩ := Option.isSome_iff_exists.mp hia
    have hlt : ∀ x ∈ la, (x.2).score.isSome := fun x hx => hla x (List.mem_cons_of_mem _ hx)
    have hBenum : ∀ jb ∈ B.enum, (jb.2 : Conj).score.isSome :=
      fun jb hjb => hB jb.2 (snd_mem_of_mem_enum hjb)
    have hfold : (ia :: la).foldlM (mp_flags_step B) (f1, f2) =
        (mp_flags_step B (f1, f2) ia).bind (la.foldlM (mp_flags_step B)) := rfl
    rw [hfold]
    obtain ⟨f1a, f2a, hinner, h1a, h2len, h2a⟩ := mp_pair_fold hsa ia.1 B.enum f1 f2 hBenum
    have hval : mp_flags_step B (f1, f2) ia = some (f1a, f2a) := hinner
    rw [hval]
    simp only [Option.some_bind]
    have hf2alen : f2a.length = B.length := by rw [h2len, hf2len]
    obtain ⟨f1', f2', hf, hl1, hl2, hg1, hg2⟩ := ih f1a f2a hf2alen hlt
    have hf1alen : f1a.length = f1.length := by
      rw [h1a]
      split <;> simp
    refine ⟨f1', f2', hf, hl1.trans hf1alen, hl2.trans h2len, ?_, ?_⟩
    · intro i
      rw [hg1 i, hf1alen]
      rw [List.any_cons]
      have hBany : (B.enum.any (fun jb => pair_related ia.2 jb.2 && scoreGtB jb.2 ia.2)) =
          B.any (fun b => pair_related ia.2 b && scoreGtB b ia.2) :=
        enum_any_snd (fun b => pair_related ia.2 b && scoreGtB b ia.2) B
      rw [h1a, ← hBany]
      by_cases hcond : (B.enum.any (fun jb => pair_related ia.2 jb.2 && scoreGtB jb.2 ia.2)) = true
      · rw [if_pos hcond, hcond, getD_set_bool]
        by_cases hi1 : ia.1 = i
        · by_cases hi2 : ia.1 < f1.length
          · rw [if_pos ⟨hi1, hi2⟩, decide_eq_true hi1, decide_eq_true hi2]
            simp only [Bool.false_and, Bool.true_and, Bool.true_or, Bool.not_true,
              Bool.and_false]
          · rw [if_neg (fun h => hi2 h.2), decide_eq_false hi2]
            simp only [Bool.and_false, Bool.and_true, Bool.false_and, Bool.false_or]
        · rw [if_neg (fun h => hi1 h.1), decide_eq_false hi1]
          simp only [Bool.false_and, Bool.false_or]
      · have hcondf : (B.enum.any (fun jb => pair_related ia.2 jb.2 && scoreGtB jb.2 ia.2)) = false :=
          Bool.eq_false_iff.mpr hcond
        rw [if_neg hcond, hcondf]
        simp only [Bool.and_false, Bool.false_or]
    · intro j
      rw [hg2 j, h2a j, hf2len]
      rw [List.any_cons]
      have hinner_eq : (B.enum.any (fun jb => decide (jb.1 = j) && decide (jb.1 < B.length) &&
            (pair_related ia.2 jb.2 && scoreGeB ia.2 jb.2))) =
          (B.enum.any (fun jb => decide (jb.1 = j) &&
            (pair_related ia.2 jb.2 && scoreGeB ia.2 jb.2))) := by
        apply any_congr_mem
        intro jb hjb
        rw [decide_eq_true (fst_lt_of_mem_enum hjb)]
        simp only [Bool.and_true]
      rw [hinner_eq]
      cases hx : f2.getD j false <;>
        cases hy : (B.enum.any (fun jb => decide (jb.1 = j) &&
            (pair_related ia.2 jb.2 && scoreGeB ia.2 jb.2))) <;>
        simp

theorem mp_insert_fold {score_f : Mask → ℚ} {flags : List Bool} :
    ∀ (lx : List (Nat × Conj)) (acc : List Conj),
      (∀ xe ∈ lx, (xe.2).score.isSome) → (∀ x ∈ acc, x.score.isSome) →
      ∃ out, lx.foldlM (mp_insert score_f flags) acc = some out ∧
        (∀ y, y ∈ out ↔ y ∈ acc ∨ ∃ xe, xe ∈ lx ∧ flags.getD xe.1 false = true ∧ xe.2 = y) ∧
        (∀ x ∈ out, x.score.isSome) ∧
        (sortedDesc acc → sortedDesc out) := by
  intro lx
  induction lx with
  | nil =>
    intro acc _ hacc
    refine ⟨acc, rfl, ?_, hacc, id⟩
    intro y
    simp
  | cons xe lx ih =>
    intro acc hlx hacc
    have hxe := hlx xe (List.mem_cons_self xe lx)
    obtain ⟨sx, hsx⟩ := Option.isSome_iff_exists.mp hxe
    have hlt : ∀ x ∈ lx, (x.2).score.isSome := fun x hx => hlx x (List.mem_cons_of_mem _ hx)
    have hfold : (xe :: lx).foldlM (mp_insert score_f flags) acc =
        (mp_insert score_f flags acc xe).bind (lx.foldlM (mp_insert score_f flags)) := rfl
    rw [hfold]
    by_cases hflag : flags.getD xe.1 false = true
    · obtain ⟨l, j, hins, hmem, hsome, hsorted⟩ := insert_sorted_spec hacc hsx
      have hval : mp_insert score_f flags acc xe = some l := by
        unfold mp_insert
        rw [hflag, if_pos rfl, hins]
        rfl
      rw [hval]
      simp only [Option.some_bind]
      obtain ⟨out, hout, hmem2, hsome2, hs2⟩ := ih l hlt hsome
      refine ⟨out, hout, ?_, hsome2, fun hs => hs2 (hsorted hs)⟩
      intro y
      rw [hmem2 y]
      constructor
      · rintro (hy | ⟨xe', hxe', hfl', hval'⟩)
        · rcases (hmem y).mp hy with h | h
          · exact Or.inr ⟨xe, List.mem_cons_self xe lx, hflag, h.symm⟩
          · exact Or.inl h
        · exact Or.inr ⟨xe', List.mem_cons_of_mem _ hxe', hfl', hval'⟩
      · rintro (hy | ⟨xe', hxe', hfl', hval'⟩)
        · exact Or.inl ((hmem y).mpr (Or.inr hy))
        · rcases List.mem_cons.mp hxe' with he | he
          · subst he
            exact Or.inl ((hmem y).mpr (Or.inl hval'.symm))
          · exact Or.inr ⟨xe', he, hfl', hval'⟩
    · have hval : mp_insert score_f flags acc xe = some acc := by
        unfold mp_insert
        rw [if_neg hflag]
        rfl
      rw [hval]
      simp only [Option.some_bind]
      obtain ⟨out, hout, hmem2, hsome2, hs2⟩ := ih acc hlt hacc
      refine ⟨out, hout, ?_, hsome2, hs2⟩
      intro y
      rw [hmem2 y]
      constructor
      · rintro (hy | ⟨xe', hxe', hfl', hval'⟩)
        · exact Or.inl hy
        · exact Or.inr ⟨xe', List.mem_cons_of_mem _ hxe', hfl', hval'⟩
      · rintro (hy | ⟨xe', hxe', hfl', hval'⟩)
        · exact Or.inl hy
        · rcases List.mem_cons.mp hxe' with he | he
          · subst he
            exact absurd hfl' hflag
          · exact Or.inr ⟨xe', he, hfl', hval'⟩

theorem getD_replicate_true {n i : Nat} :
    (List.replicate n true).getD i false = decide (i < n) := by
  rw [List.getD_eq_getElem?_getD, List.getElem?_replicate]
  by_cases h : i < n
  · simp [h]
  · simp [h]

/-- C6 as amended: in the final merge of accepted A with conditionally
accepted C, for every related pair the *lower*-scoring member is dropped and
ties drop the C member; a predicate is kept iff no pair drops it — an A
member is in the output iff no related C member scores strictly higher, and a
C member is in the output iff no related A member scores at least as high —
and the output is their union sorted by score descending. (The claim's
per-pair "the strictly higher-scoring one is kept" is refuted by
`c6_counterexample`: a member can be dropped through a different pair.) -/
theorem c6_merge_predicates_characterization (score_f : Mask → ℚ)
    (A B : List Conj) (hA : ∀ a ∈ A, a.score.isSome) (hB : ∀ b ∈ B, b.score.isSome) :
    ∃ l, merge_predicates score_f A B = some l ∧
      (∀ y, y ∈ l ↔
        (y ∈ A ∧ B.any (fun b => pair_related y b && scoreGtB b y) = false) ∨
        (y ∈ B ∧ A.any (fun x => pair_related x y && scoreGeB x y) = false)) ∧
      sortedDesc l := by
  have hAenum : ∀ ia ∈ A.enum, ((ia : Nat × Conj).2).score.isSome :=
    fun ia hia => hA ia.2 (snd_mem_of_mem_enum hia)
  have hBenum : ∀ jb ∈ B.enum, ((jb : Nat × Conj).2).score.isSome :=
    fun jb hjb => hB jb.2 (snd_mem_of_mem_enum hjb)
  obtain ⟨f1', f2', hflags, hl1, hl2, hg1, hg2⟩ :=
    mp_flags_fold hB A.enum (List.replicate A.length true) (List.replicate B.length true)
      (by simp) hAenum
  have hf1 : ∀ i y, A.get? i = some y →
      (f1'.getD i false = true ↔
        B.any (fun b => pair_related y b && scoreGtB b y) = false) := by
    intro i y hy
    have hilt : i < A.length := by
      rw [List.get?_eq_getElem?] at hy
      exact (List.getElem?_eq_some_iff.mp hy).1
    have hany : (A.enum.any (fun ia => decide (ia.1 = i) &&
          decide (ia.1 < (List.replicate A.length true).length) &&
          B.any (fun b => pair_related ia.2 b && scoreGtB b ia.2))) =
        (A.enum.any (fun ia => decide (ia.1 = i) &&
          B.any (fun b => pair_related ia.2 b && scoreGtB b ia.2))) := by
      apply any_congr_mem
      intro ia hia
      have := fst_lt_of_mem_enum hia
      rw [List.length_replicate, decide_eq_true this]
      simp only [Bool.and_true]
    rw [hg1 i, hany, getD_replicate_true, decide_eq_true hilt, Bool.true_and]
    rw [enum_any_at (fun x => B.any (fun b => pair_related x b && scoreGtB b x)) A i, hy]
    show (!(B.any fun b => pair_related y b && scoreGtB b y)) = true ↔
      (B.any fun b => pair_related y b && scoreGtB b y) = false
    cases hc : B.any (fun b => pair_related y b && scoreGtB b y) <;> decide
  have hf2 : ∀ j y, B.get? j = some y →
      (f2'.getD j false = true ↔
        A.any (fun x => pair_related x y && scoreGeB x y) = false) := by
    intro j y hy
    have hjlt : j < B.length := by
      rw [List.get?_eq_getElem?] at hy
      exact (List.getElem?_eq_some_iff.mp hy).1
    have hout : (A.enum.any (fun ia => B.enum.any (fun jb => decide (jb.1 = j) &&
          (pair_related ia.2 jb.2 && scoreGeB ia.2 jb.2)))) =
        (A.any (fun x => pair_related x y && scoreGeB x y)) := by
      have hstep : ∀ ia ∈ A.enum,
          (B.enum.any (fun jb => decide (jb.1 = j) &&
            (pair_related (ia : Nat × Conj).2 jb.2 && scoreGeB ia.2 jb.2))) =
          (pair_related ia.2 y && scoreGeB ia.2 y) := by
        intro ia _
        rw [enum_any_at (fun x => pair_related ia.2 x && scoreGeB ia.2 x) B j, hy]
      rw [any_congr_mem hstep]
      exact enum_any_snd (fun x => pair_related x y && scoreGeB x y) A
    rw [hg2 j, hout, getD_replicate_true, decide_eq_true hjlt, Bool.true_and]
    show (!(A.any fun x => pair_related x y && scoreGeB x y)) = true ↔
      (A.any fun x => pair_related x y && scoreGeB x y) = false
    cases hc : A.any (fun x => pair_related x y && scoreGeB x y) <;> decide
  unfold merge_predicates
  rw [hflags]
  simp only [Option.pure_def, Option.bind_eq_bind, Option.some_bind]
  obtain ⟨out1, hout1, hmem1, hsome1, hs1⟩ :=
    @mp_insert_fold score_f f1' A.enum [] hAenum (by intro x hx; simp at hx)
  rw [hout1]
  simp only [Option.some_bind]
  obtain ⟨out2, hout2, hmem2, hsome2, hs2⟩ :=
    @mp_insert_fold score_f f2' B.enum out1 hBenum hsome1
  refine ⟨out2, hout2, ?_, hs2 (hs1 List.chain'_nil)⟩
  intro y
  rw [hmem2 y, hmem1 y]
  constructor
  · rintro ((hy | ⟨xe, hxe, hfl, hval⟩) | ⟨xe, hxe, hfl, hval⟩)
    · simp at hy
    · subst hval
      have hget := List.mem_enum_iff_getElem?.mp hxe
      refine Or.inl ⟨List.getElem?_mem hget, ?_⟩
      exact (hf1 xe.1 xe.2 (by rw [List.get?_eq_getElem?]; exact hget)).mp hfl
    · subst hval
      have hget := List.mem_enum_iff_getElem?.mp hxe
      refine Or.inr ⟨List.getElem?_mem hget, ?_⟩
      exact (hf2 xe.1 xe.2 (by rw [List.get?_eq_getElem?]; exact hget)).mp hfl
  · rintro (⟨hyA, hkeep⟩ | ⟨hyB, hkeep⟩)
    · obtain ⟨i, hi⟩ := List.mem_iff_getElem?.mp hyA
      refine Or.inl (Or.inr ⟨(i, y), List.mem_enum_iff_getElem?.mpr hi, ?_, rfl⟩)
      exact (hf1 i y (by rw [List.get?_eq_getElem?]; exact hi)).mpr hkeep
    · obtain ⟨j, hj⟩ := List.mem_iff_getElem?.mp hyB
      refine Or.inr ⟨(j, y), List.mem_enum_iff_getElem?.mpr hj, ?_, rfl⟩
      exact (hf2 j y (by rw [List.get?_eq_getElem?]; exact hj)).mpr hkeep

/-- Witness for C6's amended theorem at a concrete one-by-one merge. -/
theorem c6_witness :
    ∃ l, merge_predicates (fun _ => 0)
        [Conj.mk [("x", [PyVal.vint 0])] none none (some 5) [] false none]
        [Conj.mk [("x", [PyVal.vint 0]), ("y", [PyVal.vint 0])] none none (some 3) [] false none] =
        some l ∧
      (∀ y, y ∈ l ↔
        (y ∈ [Conj.mk [("x", [PyVal.vint 0])] none none (some 5) [] false none] ∧
          ([Conj.mk [("x", [PyVal.vint 0]), ("y", [PyVal.vint 0])] none none (some 3) [] false none].any
            (fun b => pair_related y b && scoreGtB b y)) = false) ∨
        (y ∈ [Conj.mk [("x", [PyVal.vint 0]), ("y", [PyVal.vint 0])] none none (some 3) [] false none] ∧
          ([Conj.mk [("x", [PyVal.vint 0])] none none (some 5) [] false none].any
            (fun x => pair_related x y && scoreGeB x y)) = false)) ∧
      sortedDesc l :=
  c6_merge_predicates_characterization (fun _ => 0)
    [Conj.mk [("x", [PyVal.vint 0])] none none (some 5) [] false none]
    [Conj.mk [("x", [PyVal.vint 0]), ("y", [PyVal.vint 0])] none none (some 3) [] false none]
    (by decide) (by decide)

/-! ## Claim C2 -/

theorem gmp_scan_end {score_f : Mask → ℚ} {keys : List String} {pred : Conj} {score : ℚ}
    {orig cur : List Conj} {i : Nat} (hget : orig.get? i = none) :
    gmp_scan score_f keys pred score orig cur i = some (pred, cur) := by
  rw [gmp_scan]
  split
  · rfl
  · rename_i p hp
    rw [hget] at hp
    cases hp

theorem gmp_scan_subsumed_step {score_f : Mask → ℚ} {keys : List String} {pred : Conj}
    {score : ℚ} {orig cur : List Conj} {i : Nat} {p : Conj}
    (hget : orig.get? i = some p)
    (hadj : pred.is_adjacent_all p (some keys) = false)
    (hsub : is_subsumed_model score_f p pred keys = some true) :
    gmp_scan score_f keys pred score orig cur i =
      (delAt cur i).bind (fun cur1 => gmp_scan score_f keys pred score orig cur1 (i + 1)) := by
  rw [gmp_scan]
  split
  · rename_i hp
    rw [hget] at hp
    cases hp
  · rename_i p1 hp
    rw [hget] at hp
    cases hp
    rw [hadj]
    simp only [Bool.false_eq_true, if_false]
    rw [hsub]
    cases hd : delAt cur i with
    | none => rfl
    | some cur1 => rfl

theorem gmp_scan_skip_step {score_f : Mask → ℚ} {keys : List String} {pred : Conj}
    {score : ℚ} {orig cur : List Conj} {i : Nat} {p : Conj}
    (hget : orig.get? i = some p)
    (hadj : pred.is_adjacent_all p (some keys) = false)
    (hsub : is_subsumed_model score_f p pred keys = some false) :
    gmp_scan score_f keys pred score orig cur i =
      gmp_scan score_f keys pred score orig cur (i + 1) := by
  rw [gmp_scan]
  split
  · rename_i hp
    rw [hget] at hp
    cases hp
  · rename_i p1 hp
    rw [hget] at hp
    cases hp
    rw [hadj]
    simp only [Bool.false_eq_true, if_false]
    rw [hsub]

/-- Counterexample for C2: a bucket of two predicates, both non-adjacent to
the current predicate, both fully contained with lower score. The first is
removed at index 0; the scan then reaches the second at index 1 of the
original snapshot and executes `del predicates[1]` on the already-shrunk live
list of length 1 — an IndexError. The step does not complete without error,
refuting the claim. -/
theorem c2_counterexample :
    greedy_merge_predicate (fun _ => 0) ["a"]
        (Conj.mk [("a", [PyVal.vint 0, PyVal.vint 1])] none none (some 5) [] false none)
        [Conj.mk [("a", [PyVal.vint 0])] none none (some 1) [] false none,
         Conj.mk [("a", [PyVal.vint 1])] none none (some 1) [] false none] = none := by
  rw [show greedy_merge_predicate (fun _ => 0) ["a"]
        (Conj.mk [("a", [PyVal.vint 0, PyVal.vint 1])] none none (some 5) [] false none)
        [Conj.mk [("a", [PyVal.vint 0])] none none (some 1) [] false none,
         Conj.mk [("a", [PyVal.vint 1])] none none (some 1) [] false none] =
      gmp_scan (fun _ => 0) ["a"]
        (Conj.mk [("a", [PyVal.vint 0, PyVal.vint 1])] none none (some 5) [] false none) 5
        [Conj.mk [("a", [PyVal.vint 0])] none none (some 1) [] false none,
         Conj.mk [("a", [PyVal.vint 1])] none none (some 1) [] false none]
        [Conj.mk [("a", [PyVal.vint 0])] none none (some 1) [] false none,
         Conj.mk [("a", [PyVal.vint 1])] none none (some 1) [] false none] 0 from rfl]
  rw [gmp_scan]
  show gmp_scan (fun _ => 0) ["a"]
      (Conj.mk [("a", [PyVal.vint 0, PyVal.vint 1])] none none (some 5) [] false none) 5
      [Conj.mk [("a", [PyVal.vint 0])] none none (some 1) [] false none,
       Conj.mk [("a", [PyVal.vint 1])] none none (some 1) [] false none]
      [Conj.mk [("a", [PyVal.vint 1])] none none (some 1) [] false none] 1 = none
  rw [gmp_scan]
  rfl

theorem eraseIdx_append_mid {α : Type} :
    ∀ (l1 : List α) (x : α) (l2 : List α),
      (l1 ++ x :: l2).eraseIdx l1.length = l1 ++ l2 := by
  intro l1
  induction l1 with
  | nil => intro x l2; rfl
  | cons a t ih =>
    intro x l2
    simp only [List.cons_append, List.length_cons, List.eraseIdx_cons_succ, ih]

theorem gmp_scan_all_skip {score_f : Mask → ℚ} {keys : List String} {pred : Conj}
    {score : ℚ} (orig : List Conj) :
    ∀ (n : Nat) (cur : List Conj) (i : Nat), orig.length - i ≤ n →
      (∀ j, i ≤ j → ∀ q, orig.get? j = some q →
        pred.is_adjacent_all q (some keys) = false ∧
        is_subsumed_model score_f q pred keys = some false) →
      gmp_scan score_f keys pred score orig cur i = some (pred, cur) := by
  intro n
  induction n with
  | zero =>
    intro cur i hle _
    have hlen : orig.length ≤ i := by omega
    exact gmp_scan_end (List.get?_eq_none.mpr hlen)
  | succ n ih =>
    intro cur i hle hskip
    cases hget : orig.get? i with
    | none => exact gmp_scan_end hget
    | some q =>
      obtain ⟨hadj, hsub⟩ := hskip i (le_refl i) q hget
      rw [gmp_scan_skip_step hget hadj hsub]
      have hlt : i < orig.length := (List.get?_eq_some.mp hget).1
      exact ih cur (i + 1) (by omega) (fun j hj q' hq' => hskip j (by omega) q' hq')

theorem gmp_scan_at_qstar {score_f : Mask → ℚ} {keys : List String} {pred : Conj}
    {score : ℚ} (l1 l2 : List Conj) (qs : Conj)
    (hn2 : ∀ q ∈ l2, pred.is_adjacent_all q (some keys) = false ∧
      is_subsumed_model score_f q pred keys = some false)
    (hqadj : pred.is_adjacent_all qs (some keys) = false)
    (hqsub : is_subsumed_model score_f qs pred keys = some true) :
    gmp_scan score_f keys pred score (l1 ++ qs :: l2) (l1 ++ qs :: l2) l1.length =
      some (pred, l1 ++ l2) := by
  have hget : (l1 ++ qs :: l2).get? l1.length = some qs := by
    rw [List.get?_append_right (le_refl _)]
    simp
  rw [gmp_scan_subsumed_step hget hqadj hqsub]
  have hdel : delAt (l1 ++ qs :: l2) l1.length = some (l1 ++ l2) := by
    unfold delAt
    rw [if_pos (by simp), eraseIdx_append_mid]
  rw [hdel]
  simp only [Option.some_bind]
  apply gmp_scan_all_skip (l1 ++ qs :: l2) (l1 ++ qs :: l2).length (l1 ++ l2)
    (l1.length + 1) (by omega)
  intro j hj q hq
  have hjlen : l1.length ≤ j := by omega
  rw [List.get?_append_right hjlen] at hq
  have hcons : (qs :: l2).get? (j - l1.length) = l2.get? (j - l1.length - 1) := by
    cases hjl : j - l1.length with
    | zero => omega
    | succ k => simp
  rw [hcons] at hq
  exact hn2 q (List.get?_mem hq)

theorem gmp_scan_main {score_f : Mask → ℚ} {keys : List String} {pred : Conj}
    {score : ℚ} (l1 l2 : List Conj) (qs : Conj)
    (hn1 : ∀ q ∈ l1, pred.is_adjacent_all q (some keys) = false ∧
      is_subsumed_model score_f q pred keys = some false)
    (hn2 : ∀ q ∈ l2, pred.is_adjacent_all q (some keys) = false ∧
      is_subsumed_model score_f q pred keys = some false)
    (hqadj : pred.is_adjacent_all qs (some keys) = false)
    (hqsub : is_subsumed_model score_f qs pred keys = some true) :
    ∀ (n i : Nat), l1.length - i ≤ n → i ≤ l1.length →
      gmp_scan score_f keys pred score (l1 ++ qs :: l2) (l1 ++ qs :: l2) i =
        some (pred, l1 ++ l2) := by
  intro n
  induction n with
  | zero =>
    intro i hle hi
    have hieq : i = l1.length := by omega
    subst hieq
    exact gmp_scan_at_qstar l1 l2 qs hn2 hqadj hqsub
  | succ n ih =>
    intro i hle hi
    by_cases hieq : i = l1.length
    · subst hieq
      exact gmp_scan_at_qstar l1 l2 qs hn2 hqadj hqsub
    · have hilt : i < l1.length := by omega
      have hget : (l1 ++ qs :: l2).get? i = some ((l1 ++ qs :: l2).get ⟨i, by simp; omega⟩) := by
        rw [List.get?_eq_get]
      have hgetl1 : (l1 ++ qs :: l2).get? i = l1.get? i := List.get?_append hilt
      cases hq : l1.get? i with
      | none =>
        rw [List.get?_eq_none] at hq
        omega
      | some q =>
        obtain ⟨hadj, hsub⟩ := hn1 q (List.get?_mem hq)
        rw [gmp_scan_skip_step (hgetl1.trans hq) hadj hsub]
        exact ih (i + 1) (by omega) (by omega)

/-- C2 as amended: in the greedy coalescence scan, `del predicates[i]`
removes the element at the *current* list's position `i`, so the scanned
predicate q itself is removed only when it is the sole removal of the scan.
When exactly one bucket member, q, is non-adjacent, fully contained by p and
scoring no higher — and every other member is neither mergeable (not adjacent
along every bucket key) nor so contained — the step completes without error,
removes exactly q, and leaves every other member in the bucket. (With two or
more such members the deletion indices drift off the shrunk list and the step
raises IndexError, see `c2_counterexample`.) -/
theorem c2_single_containment_removed (score_f : Mask → ℚ) (keys : List String)
    (pred : Conj) (l1 l2 : List Conj) (qs : Conj) (s : ℚ)
    (hps : pred.score = some s)
    (hn1 : ∀ q ∈ l1, pred.is_adjacent_all q (some keys) = false ∧
      is_subsumed_model score_f q pred keys = some false)
    (hn2 : ∀ q ∈ l2, pred.is_adjacent_all q (some keys) = false ∧
      is_subsumed_model score_f q pred keys = some false)
    (hqadj : pred.is_adjacent_all qs (some keys) = false)
    (hqsub : is_subsumed_model score_f qs pred keys = some true) :
    greedy_merge_predicate score_f keys pred (l1 ++ qs :: l2) = some (pred, l1 ++ l2) := by
  unfold greedy_merge_predicate
  have hget : pred.get_score_cached score_f = some (pred, s) := by
    unfold Conj.get_score_cached
    rw [hps]
  rw [hget]
  simp only [Option.pure_def, Option.bind_eq_bind, Option.some_bind]
  exact gmp_scan_main l1 l2 qs hn1 hn2 hqadj hqsub l1.length 0 (by omega) (by omega)

/-- Witness for C2's amended theorem: one contained lower-scoring predicate
and one unrelated predicate on a different column. -/
theorem c2_witness :
    greedy_merge_predicate (fun _ => 0) ["a"]
        (Conj.mk [("a", [PyVal.vint 0, PyVal.vint 1])] none none (some 5) [] false none)
        ([] ++ (Conj.mk [("a", [PyVal.vint 0])] none none (some 1) [] false none) ::
          [Conj.mk [("b", [PyVal.vint 0])] none none (some 1) [] false none]) =
      some (Conj.mk [("a", [PyVal.vint 0, PyVal.vint 1])] none none (some 5) [] false none,
        [] ++ [Conj.mk [("b", [PyVal.vint 0])] none none (some 1) [] false none]) :=
  c2_single_containment_removed (fun _ => 0) ["a"]
    (Conj.mk [("a", [PyVal.vint 0, PyVal.vint 1])] none none (some 5) [] false none)
    [] [Conj.mk [("b", [PyVal.vint 0])] none none (some 1) [] false none]
    (Conj.mk [("a", [PyVal.vint 0])] none none (some 1) [] false none) 5
    rfl (by decide) (by decide) rfl rfl

/-! ## Claims C5 and C7: the merge loop's working frame

Shared lemmas about the association-list operations `merge` updates its
working `column_to_values` / `column_to_mask` copies with. -/

theorem contains_iff_mem {α : Type} [BEq α] [LawfulBEq α] {l : List α} {a : α} :
    l.contains a = true ↔ a ∈ l := by
  simp [List.contains]

theorem lookupList_eq_none {α β : Type} [DecidableEq α] {l : List (α × β)} {c : α}
    (h : c ∉ keysOf l) : lookupList l c = none := by
  cases hl : lookupList l c with
  | none => rfl
  | some v => exact absurd (lookupList_isSome_iff.mp (by rw [hl]; rfl)) h

theorem lookupList_append {α β : Type} [DecidableEq α] :
    ∀ (l1 l2 : List (α × β)) (c : α),
      lookupList (l1 ++ l2) c =
        match lookupList l1 c with
        | some v => some v
        | none => lookupList l2 c
  | [], l2, c => rfl
  | (k, v) :: t, l2, c => by
    by_cases hk : k = c
    · show (if k = c then some v else lookupList (t ++ l2) c) = _
      rw [if_pos hk]
      have h1 : lookupList ((k, v) :: t) c = some v := by
        show (if k = c then some v else lookupList t c) = some v
        rw [if_pos hk]
      rw [h1]
    · show (if k = c then some v else lookupList (t ++ l2) c) = _
      rw [if_neg hk]
      have h2 : lookupList ((k, v) :: t) c = lookupList t c := by
        show (if k = c then some v else lookupList t c) = _
        rw [if_neg hk]
      rw [h2]
      exact lookupList_append t l2 c

theorem keysOf_setAssoc_mem {α β : Type} [DecidableEq α] :
    ∀ (l : List (α × β)) (k : α) (v : β), k ∈ keysOf l →
      keysOf (setAssoc l k v) = keysOf l
  | [], k, v, h => by simp [keysOf] at h
  | (k', v') :: t, k, v, h => by
    unfold setAssoc
    by_cases hk : k' = k
    · simp [hk, keysOf]
    · simp only [hk, if_false]
      have ht : k ∈ keysOf t := by
        rcases List.mem_cons.mp h with h1 | h1
        · exact absurd h1.symm hk
        · exact h1
      show k' :: keysOf (setAssoc t k v) = k' :: keysOf t
      rw [keysOf_setAssoc_mem t k v ht]

theorem lookupList_setAssoc_self {α β : Type} [DecidableEq α] :
    ∀ (l : List (α × β)) (k : α) (v : β), lookupList (setAssoc l k v) k = some v
  | [], k, v => by simp [setAssoc, lookupList]
  | (k', v') :: t, k, v => by
    unfold setAssoc
    by_cases hk : k' = k
    · simp [hk, lookupList]
    · simp only [hk, if_false]
      show lookupList ((k', v') :: setAssoc t k v) k = some v
      unfold lookupList
      simp only [hk, if_false]
      exact lookupList_setAssoc_self t k v

theorem lookupList_setAssoc_ne {α β : Type} [DecidableEq α] :
    ∀ (l : List (α × β)) (k : α) (v : β) (c : α), k ≠ c →
      lookupList (setAssoc l k v) c = lookupList l c
  | [], k, v, c, h => by simp [setAssoc, lookupList, h]
  | (k', v') :: t, k, v, c, h => by
    unfold setAssoc
    by_cases hk : k' = k
    · subst hk
      simp only [if_pos rfl]
      unfold lookupList
      simp [h]
    · simp only [hk, if_false]
      show lookupList ((k', v') :: setAssoc t k v) c = lookupList ((k', v') :: t) c
      unfold lookupList
      by_cases hc : k' = c
      · simp [hc]
      · simp only [hc, if_false]
        exact lookupList_setAssoc_ne t k v c h

theorem maskOr_comm : ∀ (a b : Mask), maskOr a b = maskOr b a := by
  intro a
  induction a with
  | nil => intro b; cases b <;> rfl
  | cons x xs ih =>
    intro b
    cases b with
    | nil => rfl
    | cons y ys =>
      show (x || y) :: maskOr xs ys = (y || x) :: maskOr ys xs
      rw [Bool.or_comm, ih]

theorem maskOr_length {n : Nat} {a b : Mask} (ha : a.length = n) (hb : b.length = n) :
    (maskOr a b).length = n := by
  unfold maskOr
  rw [List.length_zipWith, ha, hb, Nat.min_self]

theorem merge_step_shared {p q : Conj} {ctv : List (String × List PyVal)}
    {ctm : List (String × Mask)} {adj : List (String × List Conj)}
    {column : String} {values : List PyVal} {st1 : MergeSt}
    (hc : (keysOf ctv).contains column = true)
    (h : merge_step p q (ctv, ctm, adj) (column, values) = some st1) :
    ∃ cur selfMask otherMask,
      lookupList ctv column = some cur ∧
      lookupList ctm column = some selfMask ∧
      q.column_to_mask.bind (fun l => lookupList l column) = some otherMask ∧
      st1.1 = setAssoc ctv column (pySetList (values ++ cur)) ∧
      st1.2.1 = setAssoc ctm column (maskOr selfMask otherMask) := by
  unfold merge_step at h
  simp only [Option.pure_def, Option.bind_eq_bind] at h
  rw [if_pos hc] at h
  cases hcur : lookupList ctv column with
  | none => rw [hcur] at h; simp at h
  | some cur =>
    rw [hcur] at h
    simp only [Option.some_bind] at h
    cases hsm : lookupList ctm column with
    | none => rw [hsm] at h; simp at h
    | some selfMask =>
      rw [hsm] at h
      simp only [Option.some_bind] at h
      cases hom : q.column_to_mask.bind (fun l => lookupList l column) with
      | none => rw [hom] at h; simp at h
      | some otherMask =>
        rw [hom] at h
        simp only [Option.some_bind] at h
        refine ⟨cur, selfMask, otherMask, rfl, rfl, rfl, ?_⟩
        by_cases hadj : (keysOf adj).contains column = true
        · rw [if_pos hadj] at h
          cases hsa : lookupList p.adjacent column with
          | none => rw [hsa] at h; simp at h
          | some sl =>
            rw [hsa] at h
            simp only [Option.some_bind] at h
            cases hoa : lookupList q.adjacent column with
            | none => rw [hoa] at h; simp at h
            | some ol =>
              rw [hoa] at h
              simp only [Option.some_bind, Option.some.injEq] at h
              rw [← h]
              exact ⟨rfl, rfl⟩
        · rw [if_neg hadj] at h
          simp only [Option.some.injEq] at h
          rw [← h]
          exact ⟨rfl, rfl⟩

theorem merge_step_new {p q : Conj} {ctv : List (String × List PyVal)}
    {ctm : List (String × Mask)} {adj : List (String × List Conj)}
    {column : String} {values : List PyVal} {st1 : MergeSt}
    (hc : (keysOf ctv).contains column = false)
    (h : merge_step p q (ctv, ctm, adj) (column, values) = some st1) :
    ∃ otherMask,
      q.column_to_mask.bind (fun l => lookupList l column) = some otherMask ∧
      st1.1 = ctv ++ [(column, values)] ∧
      st1.2.1 = ctm ++ [(column, otherMask)] := by
  unfold merge_step at h
  simp only [Option.pure_def, Option.bind_eq_bind] at h
  rw [if_neg (by rw [hc]; exact Bool.false_ne_true)] at h
  cases hom : q.column_to_mask.bind (fun l => lookupList l column) with
  | none => rw [hom] at h; simp at h
  | some otherMask =>
    rw [hom] at h
    simp only [Option.some_bind] at h
    refine ⟨otherMask, rfl, ?_⟩
    by_cases hadj : (keysOf adj).contains column = true
    · rw [if_pos hadj] at h
      cases hoa : lookupList q.adjacent column with
      | none => rw [hoa] at h; simp at h
      | some ol =>
        rw [hoa] at h
        simp only [Option.some_bind, Option.some.injEq] at h
        rw [← h]
        exact ⟨rfl, rfl⟩
    · rw [if_neg hadj] at h
      simp only [Option.some.injEq] at h
      rw [← h]
      exact ⟨rfl, rfl⟩

theorem merge_fold_ctm {p q : Conj} {qm : List (String × Mask)}
    (hqm : q.column_to_mask = some qm) :
    ∀ (l : List (String × List PyVal)) (ctv : List (String × List PyVal))
      (ctm : List (String × Mask)) (adj : List (String × List Conj)) (out : MergeSt),
      l.foldlM (merge_step p q) (ctv, ctm, adj) = some out →
      (l.map Prod.fst).Nodup →
      keysOf ctm = keysOf ctv →
      keysOf out.2.1 = keysOf out.1 ∧
      keysOf out.1 = keysOf ctv ++
        (l.map Prod.fst).filter (fun c => !((keysOf ctv).contains c)) ∧
      ∀ c, lookupList out.2.1 c =
        if (l.map Prod.fst).contains c then
          (if (keysOf ctv).contains c then
            (lookupList ctm c).bind (fun a => (lookupList qm c).map (fun b => maskOr a b))
          else lookupList qm c)
        else lookupList ctm c := by
  intro l
  induction l with
  | nil =>
    intro ctv ctm adj out h _ hkeys
    simp only [List.foldlM_nil, Option.pure_def, Option.some.injEq] at h
    subst h
    refine ⟨hkeys, by simp, ?_⟩
    intro c
    simp
  | cons kv t ih =>
    obtain ⟨column, values⟩ := kv
    intro ctv ctm adj out h hnd hkeys
    rw [List.foldlM_cons] at h
    simp only [Option.bind_eq_bind] at h
    cases hstep : merge_step p q (ctv, ctm, adj) (column, values) with
    | none => rw [hstep] at h; simp at h
    | some st1 =>
      rw [hstep] at h
      simp only [Option.some_bind] at h
      obtain ⟨st1a, st1b, st1c⟩ := st1
      have hnd1 : (t.map Prod.fst).Nodup := (List.nodup_cons.mp hnd).2
      have hcol_not_t : column ∉ t.map Prod.fst := (List.nodup_cons.mp hnd).1
      have hct : (t.map Prod.fst).contains column = false := by
        cases hq : (t.map Prod.fst).contains column
        · rfl
        · exact absurd (contains_iff_mem.mp hq) hcol_not_t
      by_cases hc : (keysOf ctv).contains column = true
      · obtain ⟨cur, selfMask, otherMask, hcur, hsm, hom, h1, h2⟩ :=
          merge_step_shared hc hstep
        simp only at h1 h2
        subst h1
        subst h2
        have hmemv : column ∈ keysOf ctv := contains_iff_mem.mp hc
        have hmemm : column ∈ keysOf ctm := by rw [hkeys]; exact hmemv
        have hkv : keysOf (setAssoc ctv column (pySetList (values ++ cur))) = keysOf ctv :=
          keysOf_setAssoc_mem _ _ _ hmemv
        have hkm : keysOf (setAssoc ctm column (maskOr selfMask otherMask)) = keysOf ctm :=
          keysOf_setAssoc_mem _ _ _ hmemm
        obtain ⟨ha, hb, hcl⟩ := ih _ _ _ _ h hnd1 (by rw [hkv, hkm, hkeys])
        refine ⟨ha, ?_, ?_⟩
        · rw [hb, hkv]
          simp only [List.map_cons]
          have hfcons : List.filter (fun c => !((keysOf ctv).contains c))
                (column :: t.map Prod.fst) =
              List.filter (fun c => !((keysOf ctv).contains c)) (t.map Prod.fst) := by
            rw [List.filter_cons_of_neg]
            intro hcon
            rw [hc] at hcon
            exact absurd hcon (by decide)
          rw [hfcons]
        · intro c
          simp only [List.map_cons]
          by_cases hcc : column = c
          · subst hcc
            rw [hcl column, hct]
            simp only [Bool.false_eq_true, if_false]
            rw [lookupList_setAssoc_self]
            have hcons : ((column :: t.map Prod.fst).contains column) = true := by
              simp [List.contains_cons]
            rw [show q.column_to_mask.bind (fun l => lookupList l column) =
                lookupList qm column from by rw [hqm]; rfl] at hom
            rw [if_pos hcons, if_pos hc, hsm, hom]
            rfl
          · have hcbeq : (c == column) = false := by
              exact beq_eq_false_iff_ne.mpr (Ne.symm hcc)
            have hconsc : ((column :: t.map Prod.fst).contains c) =
                (t.map Prod.fst).contains c := by
              simp [List.contains_cons, hcbeq]
            rw [hcl c]
            simp only [hkv, hconsc,
              lookupList_setAssoc_ne ctm column (maskOr selfMask otherMask) c hcc]
      · have hccf : (keysOf ctv).contains column = false := by
          simpa using hc
        obtain ⟨otherMask, hom, h1, h2⟩ := merge_step_new hccf hstep
        simp only at h1 h2
        subst h1
        subst h2
        have hnotmem : column ∉ keysOf ctv := fun hm =>
          hc (contains_iff_mem.mpr hm)
        have hkv : keysOf (ctv ++ [(column, values)]) = keysOf ctv ++ [column] := by
          simp [keysOf]
        have hkm : keysOf (ctm ++ [(column, otherMask)]) = keysOf ctm ++ [column] := by
          simp [keysOf]
        obtain ⟨ha, hb, hcl⟩ := ih _ _ _ _ h hnd1 (by rw [hkv, hkm, hkeys])
        refine ⟨ha, ?_, ?_⟩
        · rw [hb, hkv]
          simp only [List.map_cons]
          have hfiltereq : (t.map Prod.fst).filter
                (fun c => !((keysOf ctv ++ [column]).contains c)) =
              (t.map Prod.fst).filter (fun c => !((keysOf ctv).contains c)) := by
            apply List.filter_congr
            intro x hx
            have hxnotcol : x ≠ column := fun he => hcol_not_t (he ▸ hx)
            show (!((keysOf ctv ++ [column]).contains x)) = (!((keysOf ctv).contains x))
            congr 1
            cases hl : (keysOf ctv).contains x with
            | true =>
              have hm2 : x ∈ keysOf ctv ++ [column] :=
                List.mem_append.mpr (Or.inl (contains_iff_mem.mp hl))
              rw [contains_iff_mem.mpr hm2]
            | false =>
              cases hl2 : (keysOf ctv ++ [column]).contains x with
              | false => rfl
              | true =>
                rcases List.mem_append.mp (contains_iff_mem.mp hl2) with hm | hm
                · rw [contains_iff_mem.mpr hm] at hl
                  cases hl
                · exact absurd (List.mem_singleton.mp hm) hxnotcol
          rw [hfiltereq]
          have hfcons : (column :: t.map Prod.fst).filter
                (fun c => !((keysOf ctv).contains c)) =
              column :: (t.map Prod.fst).filter (fun c => !((keysOf ctv).contains c)) := by
            rw [List.filter_cons_of_pos]
            show (!((keysOf ctv).contains column)) = true
            rw [hccf]
            rfl
          rw [hfcons, List.append_assoc]
          rfl
        · intro c
          simp only [List.map_cons]
          by_cases hcc : column = c
          · subst hcc
            rw [hcl column, hct]
            simp only [Bool.false_eq_true, if_false]
            have hlapp2 : lookupList (ctm ++ [(column, otherMask)]) column =
                some otherMask := by
              rw [lookupList_append, lookupList_eq_none (by rw [hkeys]; exact hnotmem)]
              show lookupList [(column, otherMask)] column = some otherMask
              show (if column = column then some otherMask else lookupList [] column) =
                some otherMask
              rw [if_pos rfl]
            rw [hlapp2]
            have hcons : ((column :: t.map Prod.fst).contains column) = true := by
              simp [List.contains_cons]
            rw [show q.column_to_mask.bind (fun l => lookupList l column) =
                lookupList qm column from by rw [hqm]; rfl] at hom
            rw [if_pos hcons, if_neg (by rw [hccf]; exact Bool.false_ne_true), hom]
          · have hcbeq : (c == column) = false :=
              beq_eq_false_iff_ne.mpr (Ne.symm hcc)
            have hconsc : ((column :: t.map Prod.fst).contains c) =
                (t.map Prod.fst).contains c := by
              simp [List.contains_cons, hcbeq]
            have hlapp : lookupList (ctm ++ [(column, otherMask)]) c = lookupList ctm c := by
              rw [lookupList_append]
              cases hl : lookupList ctm c with
              | none =>
                show (if column = c then some otherMask else lookupList [] c) = none
                rw [if_neg hcc]
                rfl
              | some v => rfl
            have hkvc : ((keysOf (ctv ++ [(column, values)])).contains c) =
                ((keysOf ctv).contains c) := by
              rw [hkv]
              cases hl : (keysOf ctv).contains c with
              | false =>
                cases hl2 : (keysOf ctv ++ [column]).contains c with
                | false => rfl
                | true =>
                  rcases List.mem_append.mp (contains_iff_mem.mp hl2) with hm | hm
                  · rw [contains_iff_mem.mpr hm] at hl
                    cases hl
                  · rcases List.mem_singleton.mp hm with he
                    exact absurd he.symm hcc
              | true =>
                have : c ∈ keysOf ctv ++ [column] :=
                  List.mem_append.mpr (Or.inl (contains_iff_mem.mp hl))
                rw [contains_iff_mem.mpr this]
            rw [hcl c]
            simp only [hkvc, hlapp, hconsc]

theorem not_contains_of_not_mem {l : List String} {c : String} (h : c ∉ l) :
    l.contains c = false := by
  cases hq : l.contains c
  · rfl
  · exact absurd (contains_iff_mem.mp hq) h

theorem mem_append_filter_iff {l1 l2 : List String} {c : String} :
    (c ∈ l1 ++ l2.filter (fun x => !(l1.contains x))) ↔ (c ∈ l1 ∨ c ∈ l2) := by
  rw [List.mem_append, List.mem_filter]
  constructor
  · rintro (h | ⟨h, _⟩)
    · exact Or.inl h
    · exact Or.inr h
  · rintro (h | h)
    · exact Or.inl h
    · by_cases hm : c ∈ l1
      · exact Or.inl hm
      · refine Or.inr ⟨h, ?_⟩
        rw [not_contains_of_not_mem hm]
        rfl

theorem nodup_append_filter {l1 l2 : List String} (h1 : l1.Nodup) (h2 : l2.Nodup) :
    (l1 ++ l2.filter (fun x => !(l1.contains x))).Nodup := by
  refine List.Nodup.append h1 (h2.filter _) ?_
  intro a ha hmem
  obtain ⟨_, hcond⟩ := List.mem_filter.mp hmem
  rw [contains_iff_mem.mpr ha] at hcond
  exact absurd hcond (by decide)

theorem merge_result_spec {p q r : Conj} {pm qm : List (String × Mask)}
    (hpm : p.column_to_mask = some pm) (hqm : q.column_to_mask = some qm)
    (hpk : keysOf pm = p.columns) (hqnd : q.columns.Nodup)
    (hmr : merge p q = some r) :
    ∃ ctm : List (String × Mask),
      r.column_to_mask = some ctm ∧
      r.mask = some (get_mask_from_column_to_mask ctm) ∧
      (∀ f : Mask → ℚ, score_of f r = some (f (get_mask_from_column_to_mask ctm))) ∧
      keysOf ctm = r.columns ∧
      r.columns = p.columns ++ q.columns.filter (fun c => !(p.columns.contains c)) ∧
      ∀ c, lookupList ctm c =
        if q.columns.contains c then
          (if p.columns.contains c then
            (lookupList pm c).bind (fun a => (lookupList qm c).map (fun b => maskOr a b))
          else lookupList qm c)
        else lookupList pm c := by
  unfold merge at hmr
  cases hmw : merge_with_operands p q with
  | none => rw [hmw] at hmr; simp at hmr
  | some rab =>
    rw [hmw] at hmr
    simp only [Option.map_some', Option.some.injEq] at hmr
    subst hmr
    unfold merge_with_operands at hmw
    rw [hpm] at hmw
    simp only [Option.pure_def, Option.bind_eq_bind, Option.some_bind] at hmw
    cases hf : q.column_to_values.foldlM (merge_step p q)
        (p.column_to_values, pm, p.adjacent) with
    | none => rw [hf] at hmw; simp at hmw
    | some st =>
      rw [hf] at hmw
      simp only [Option.some_bind, Option.some.injEq] at hmw
      obtain ⟨ctv, ctm, adj⟩ := st
      obtain ⟨ha, hb, hcl⟩ := merge_fold_ctm hqm q.column_to_values
        p.column_to_values pm p.adjacent (ctv, ctm, adj) hf hqnd hpk
      rw [← hmw]
      refine ⟨ctm, rfl, rfl, fun f => rfl, ha, hb, hcl⟩

/-- C5: merge is commutative up to cache contents. On well-formed operands
whose per-column mask frames are aligned with their columns (same keys, no
duplicate columns, all masks of the table's row count), whenever both
`p.merge(q)` and `q.merge(p)` complete, the two results carry the same row
mask and, for any deterministic scoring function applied through the cache
chain, the same score. The working frames differ only in column order and in
the operand order of the per-column mask OR, neither of which the row-wise
AND observes. -/
theorem c5_merge_commutes (p q r1 r2 : Conj) (pm qm : List (String × Mask))
    (n : Nat) (score_f : Mask → ℚ)
    (hpm : p.column_to_mask = some pm) (hqm : q.column_to_mask = some qm)
    (hpk : keysOf pm = p.columns) (hqk : keysOf qm = q.columns)
    (hpnd : p.columns.Nodup) (hqnd : q.columns.Nodup)
    (hplen : ∀ cm ∈ pm, (cm.2 : Mask).length = n)
    (hqlen : ∀ cm ∈ qm, (cm.2 : Mask).length = n)
    (h1 : merge p q = some r1) (h2 : merge q p = some r2) :
    r1.mask = r2.mask ∧ score_of score_f r1 = score_of score_f r2 := by
  obtain ⟨ctm1, hcm1, hm1, hsc1, hk1, hcols1, hl1⟩ :=
    merge_result_spec hpm hqm hpk hqnd h1
  obtain ⟨ctm2, hcm2, hm2, hsc2, hk2, hcols2, hl2⟩ :=
    merge_result_spec hqm hpm hqk hpnd h2
  have hlook : ∀ c, lookupList ctm1 c = lookupList ctm2 c := by
    intro c
    rw [hl1 c, hl2 c]
    by_cases hcp : p.columns.contains c = true
    · by_cases hcq : q.columns.contains c = true
      · rw [if_pos hcq, if_pos hcp, if_pos hcp, if_pos hcq]
        have hpc : c ∈ keysOf pm := by rw [hpk]; exact contains_iff_mem.mp hcp
        have hqc : c ∈ keysOf qm := by rw [hqk]; exact contains_iff_mem.mp hcq
        obtain ⟨a, hav⟩ := Option.isSome_iff_exists.mp (lookupList_isSome_iff.mpr hpc)
        obtain ⟨b, hbv⟩ := Option.isSome_iff_exists.mp (lookupList_isSome_iff.mpr hqc)
        rw [hav, hbv]
        simp only [Option.some_bind, Option.map_some', Option.some.injEq]
        exact maskOr_comm a b
      · rw [if_neg hcq, if_pos hcp, if_neg hcq]
    · by_cases hcq : q.columns.contains c = true
      · rw [if_pos hcq, if_neg hcp, if_neg hcp]
      · rw [if_neg hcq, if_neg hcp]
        have hnp : c ∉ keysOf pm := by
          rw [hpk]
          intro hmem
          exact hcp (contains_iff_mem.mpr hmem)
        have hnq : c ∉ keysOf qm := by
          rw [hqk]
          intro hmem
          exact hcq (contains_iff_mem.mpr hmem)
        rw [lookupList_eq_none hnp, lookupList_eq_none hnq]
  have hnd1 : (keysOf ctm1).Nodup := by
    rw [hk1, hcols1]
    exact nodup_append_filter hpnd hqnd
  have hnd2 : (keysOf ctm2).Nodup := by
    rw [hk2, hcols2]
    exact nodup_append_filter hqnd hpnd
  have hkeysiff : ∀ c, c ∈ keysOf ctm1 ↔ c ∈ keysOf ctm2 := by
    intro c
    rw [hk1, hcols1, hk2, hcols2, mem_append_filter_iff, mem_append_filter_iff]
    exact Or.comm
  have hmemiff : ∀ x : String × Mask, x ∈ ctm1 ↔ x ∈ ctm2 := by
    intro x
    constructor
    · intro hx
      have := mem_lookupList hnd1 hx
      rw [hlook x.1] at this
      exact lookupList_mem this
    · intro hx
      have := mem_lookupList hnd2 hx
      rw [← hlook x.1] at this
      exact lookupList_mem this
  have hlen1 : ∀ cm ∈ ctm1, (cm.2 : Mask).length = n := by
    intro cm hmem
    have hlk := mem_lookupList hnd1 hmem
    rw [hl1 cm.1] at hlk
    cases hcq : q.columns.contains cm.1 with
    | true =>
      rw [if_pos hcq] at hlk
      cases hcp : p.columns.contains cm.1 with
      | true =>
        rw [if_pos hcp] at hlk
        cases hav : lookupList pm cm.1 with
        | none => rw [hav] at hlk; cases hlk
        | some a =>
          rw [hav] at hlk
          cases hbv : lookupList qm cm.1 with
          | none => rw [hbv] at hlk; cases hlk
          | some b =>
            rw [hbv] at hlk
            simp only [Option.some_bind, Option.map_some', Option.some.injEq] at hlk
            rw [← hlk]
            exact maskOr_length (hplen _ (lookupList_mem hav))
              (hqlen _ (lookupList_mem hbv))
      | false =>
        rw [if_neg (by rw [hcp]; exact Bool.false_ne_true)] at hlk
        exact hqlen _ (lookupList_mem hlk)
    | false =>
      rw [if_neg (by rw [hcq]; exact Bool.false_ne_true)] at hlk
      exact hplen _ (lookupList_mem hlk)
  have hlen2 : ∀ cm ∈ ctm2, (cm.2 : Mask).length = n := by
    intro cm hmem
    exact hlen1 cm ((hmemiff cm).mpr hmem)
  have hrow : rowCount ctm1 = rowCount ctm2 := by
    cases he1 : ctm1 with
    | nil =>
      cases he2 : ctm2 with
      | nil => rfl
      | cons d t2 =>
        have : d ∈ ctm1 := (hmemiff d).mpr (by rw [he2]; exact List.mem_cons_self d t2)
        rw [he1] at this
        cases this
    | cons d t1 =>
      cases he2 : ctm2 with
      | nil =>
        have : d ∈ ctm2 := (hmemiff d).mp (by rw [he1]; exact List.mem_cons_self d t1)
        rw [he2] at this
        cases this
      | cons e t2 =>
        show d.2.length = e.2.length
        rw [hlen1 d (by rw [he1]; exact List.mem_cons_self d t1),
          hlen2 e (by rw [he2]; exact List.mem_cons_self e t2)]
  have hgm : get_mask_from_column_to_mask ctm1 = get_mask_from_column_to_mask ctm2 := by
    unfold get_mask_from_column_to_mask
    rw [hrow]
    apply List.map_congr_left
    intro i _
    exact all_eq_of_mem_iff hmemiff _
  constructor
  · rw [hm1, hm2, hgm]
  · rw [hsc1 score_f, hsc2 score_f, hgm]

/-- Witness for C5 at two single-column predicates over a two-row table. -/
theorem c5_witness :
    (merge (Conj.mk [("a", [PyVal.vint 0])] (some [("a", [true, false])])
        none none [] true none)
      (Conj.mk [("b", [PyVal.vint 1])] (some [("b", [true, true])])
        none none [] true none)).map Conj.mask =
      some (some [true, false]) ∧
    (Conj.mk [("a", [PyVal.vint 0]), ("b", [PyVal.vint 1])]
        (some [("a", [true, false]), ("b", [true, true])]) (some [true, false]) none []
        false (some (Conj.mk [("a", [PyVal.vint 0])] (some [("a", [true, false])])
          none none [] true none,
          Conj.mk [("b", [PyVal.vint 1])] (some [("b", [true, true])])
            none none [] true none))).mask =
      (Conj.mk [("b", [PyVal.vint 1]), ("a", [PyVal.vint 0])]
        (some [("b", [true, true]), ("a", [true, false])]) (some [true, false]) none []
        false (some (Conj.mk [("b", [PyVal.vint 1])] (some [("b", [true, true])])
          none none [] true none,
          Conj.mk [("a", [PyVal.vint 0])] (some [("a", [true, false])])
            none none [] true none))).mask ∧
    score_of (fun _ => 0)
        (Conj.mk [("a", [PyVal.vint 0]), ("b", [PyVal.vint 1])]
          (some [("a", [true, false]), ("b", [true, true])]) (some [true, false]) none []
          false (some (Conj.mk [("a", [PyVal.vint 0])] (some [("a", [true, false])])
            none none [] true none,
            Conj.mk [("b", [PyVal.vint 1])] (some [("b", [true, true])])
              none none [] true none))) =
      score_of (fun _ => 0)
        (Conj.mk [("b", [PyVal.vint 1]), ("a", [PyVal.vint 0])]
          (some [("b", [true, true]), ("a", [true, false])]) (some [true, false]) none []
          false (some (Conj.mk [("b", [PyVal.vint 1])] (some [("b", [true, true])])
            none none [] true none,
            Conj.mk [("a", [PyVal.vint 0])] (some [("a", [true, false])])
              none none [] true none))) := by
  refine ⟨rfl, ?_⟩
  exact (c5_merge_commutes
    (Conj.mk [("a", [PyVal.vint 0])] (some [("a", [true, false])]) none none [] true none)
    (Conj.mk [("b", [PyVal.vint 1])] (some [("b", [true, true])]) none none [] true none)
    (Conj.mk [("a", [PyVal.vint 0]), ("b", [PyVal.vint 1])]
      (some [("a", [true, false]), ("b", [true, true])]) (some [true, false]) none []
      false (some (Conj.mk [("a", [PyVal.vint 0])] (some [("a", [true, false])])
        none none [] true none,
        Conj.mk [("b", [PyVal.vint 1])] (some [("b", [true, true])])
          none none [] true none)))
    (Conj.mk [("b", [PyVal.vint 1]), ("a", [PyVal.vint 0])]
      (some [("b", [true, true]), ("a", [true, false])]) (some [true, false]) none []
      false (some (Conj.mk [("b", [PyVal.vint 1])] (some [("b", [true, true])])
        none none [] true none,
        Conj.mk [("a", [PyVal.vint 0])] (some [("a", [true, false])])
          none none [] true none)))
    [("a", [true, false])] [("b", [true, true])] 2 (fun _ => 0)
    rfl rfl rfl rfl (by decide) (by decide) (by decide) (by decide) rfl rfl)

/-! ## Claim C7 -/

theorem mapM_option_mem {α β : Type} (f : α → Option β) :
    ∀ (l : List α) (out : List β), l.mapM f = some out →
      ∀ b, b ∈ out ↔ ∃ a ∈ l, f a = some b := by
  intro l
  induction l with
  | nil =>
    intro out h b
    simp only [List.mapM_nil, Option.pure_def, Option.some.injEq] at h
    subst h
    simp
  | cons a t ih =>
    intro out h b
    rw [List.mapM_cons] at h
    simp only [Option.pure_def, Option.bind_eq_bind] at h
    cases hfa : f a with
    | none => rw [hfa] at h; simp at h
    | some b0 =>
      rw [hfa] at h
      simp only [Option.some_bind] at h
      cases hmt : t.mapM f with
      | none => rw [hmt] at h; simp at h
      | some bs =>
        rw [hmt] at h
        simp only [Option.some_bind, Option.some.injEq] at h
        subst h
        constructor
        · intro hb
          rcases List.mem_cons.mp hb with hb | hb
          · exact ⟨a, List.mem_cons_self a t, by rw [hfa, hb]⟩
          · obtain ⟨a1, ha1, hfa1⟩ := (ih bs hmt b).mp hb
            exact ⟨a1, List.mem_cons_of_mem a ha1, hfa1⟩
        · rintro ⟨a1, ha1, hfa1⟩
          rcases List.mem_cons.mp ha1 with he | hm
          · subst he
            rw [hfa] at hfa1
            rw [List.mem_cons]
            exact Or.inl (Option.some.inj hfa1).symm
          · exact List.mem_cons_of_mem b0 ((ih bs hmt b).mpr ⟨a1, hm, hfa1⟩)

theorem mapM_option_isSome {α β : Type} (f : α → Option β) :
    ∀ (l : List α), (∀ a ∈ l, (f a).isSome = true) → ∃ out, l.mapM f = some out := by
  intro l
  induction l with
  | nil => intro _; exact ⟨[], rfl⟩
  | cons a t ih =>
    intro h
    obtain ⟨b0, hb0⟩ := Option.isSome_iff_exists.mp (h a (List.mem_cons_self a t))
    obtain ⟨bs, hbs⟩ := ih (fun x hx => h x (List.mem_cons_of_mem a hx))
    refine ⟨b0 :: bs, ?_⟩
    rw [List.mapM_cons, hb0, hbs]
    rfl

theorem mem_insertLe {α : Type} (le : α → α → Bool) (a x : α) :
    ∀ l : List α, x ∈ insertLe le a l ↔ x = a ∨ x ∈ l := by
  intro l
  induction l with
  | nil => simp [insertLe]
  | cons b t ih =>
    show x ∈ (if le a b then a :: b :: t else b :: insertLe le a t) ↔ _
    by_cases h : le a b = true
    · rw [if_pos h]
      simp [List.mem_cons]
    · rw [if_neg h]
      simp only [List.mem_cons, ih]
      tauto

theorem mem_sortLe {α : Type} (le : α → α → Bool) (x : α) :
    ∀ l : List α, x ∈ sortLe le l ↔ x ∈ l := by
  intro l
  induction l with
  | nil => simp [sortLe]
  | cons a t ih =>
    show x ∈ insertLe le a (sortLe le t) ↔ x ∈ a :: t
    rw [mem_insertLe, ih, List.mem_cons]

/-- The specification's invariant shape for C7: the row mask of a predicate
read as the columnwise AND, over every column in `keys`, of its per-column
mask in `column_to_mask`; `none` when the frame or one of the keys' masks is
missing. -/
def mask_and_over_keys (p : Conj) : Option Mask := do
  let ctm ← p.column_to_mask
  let masks ← p.keys.mapM (fun c => lookupList ctm c)
  pure ((List.range (rowCount ctm)).map (fun i => masks.all (fun m => m.getD i false)))

/-- The well-formedness the emitted predicates carry: a per-column mask frame
aligned with the (duplicate-free) columns, and a cached row mask that is the
row-wise AND of the frame. -/
def ctm_aligned (p : Conj) : Prop :=
  ∃ ctmv : List (String × Mask),
    p.column_to_mask = some ctmv ∧
    keysOf ctmv = p.columns ∧
    p.columns.Nodup ∧
    p.mask = some (get_mask_from_column_to_mask ctmv)

theorem mask_eq_and_over_keys_of_aligned {p : Conj} (h : ctm_aligned p) :
    p.mask = mask_and_over_keys p := by
  obtain ⟨ctmv, hc, hk, hnd, hm⟩ := h
  unfold mask_and_over_keys
  rw [hc]
  simp only [Option.pure_def, Option.bind_eq_bind, Option.some_bind]
  have hkeysmem : ∀ c ∈ p.keys, c ∈ keysOf ctmv := by
    intro c hcm
    rw [hk]
    exact (mem_sortLe strLeB c p.columns).mp hcm
  obtain ⟨masks, hmasks⟩ := mapM_option_isSome (fun c => lookupList ctmv c) p.keys
    (fun c hcm => lookupList_isSome_iff.mpr (hkeysmem c hcm))
  rw [hmasks]
  simp only [Option.some_bind]
  rw [hm]
  have hndk : (keysOf ctmv).Nodup := by rw [hk]; exact hnd
  have hmem2 : ∀ m : Mask, m ∈ masks ↔ m ∈ ctmv.map Prod.snd := by
    intro m
    constructor
    · intro hmm
      obtain ⟨c, hck, hlc⟩ := (mapM_option_mem _ p.keys masks hmasks m).mp hmm
      exact List.mem_map.mpr ⟨(c, m), lookupList_mem hlc, rfl⟩
    · intro hmm
      obtain ⟨cm, hcm2, he⟩ := List.mem_map.mp hmm
      apply (mapM_option_mem _ p.keys masks hmasks m).mpr
      refine ⟨cm.1, ?_, ?_⟩
      · show cm.1 ∈ sortLe strLeB p.columns
        apply (mem_sortLe strLeB cm.1 p.columns).mpr
        rw [← hk]
        exact List.mem_map.mpr ⟨cm, hcm2, rfl⟩
      · have hl := mem_lookupList hndk
          (show (cm.1, cm.2) ∈ ctmv from by
            rw [show (cm.1, cm.2) = cm from rfl]
            exact hcm2)
        rw [hl, he]
  congr 1
  unfold get_mask_from_column_to_mask
  apply List.map_congr_left
  intro i _
  have hstep : masks.all (fun m => m.getD i false) =
      (ctmv.map Prod.snd).all (fun m => m.getD i false) :=
    all_eq_of_mem_iff hmem2 _
  have hstep2 : ∀ l : List (String × Mask),
      (l.map Prod.snd).all (fun m => m.getD i false) =
        l.all (fun cm => cm.2.getD i false) := by
    intro l
    induction l with
    | nil => rfl
    | cons d t2 ih2 => simp only [List.map_cons, List.all_cons, ih2]
  rw [hstep, hstep2]

theorem add_adjacent_fields (p : Conj) (key : String) (q : Conj) :
    (p.add_adjacent key q).column_to_values = p.column_to_values ∧
    (p.add_adjacent key q).column_to_mask = p.column_to_mask ∧
    (p.add_adjacent key q).mask = p.mask := by
  cases p with
  | mk v c m s a b pr =>
    unfold Conj.add_adjacent
    cases hl : lookupList (Conj.mk v c m s a b pr).adjacent key <;>
      exact ⟨rfl, rfl, rfl⟩

theorem ctm_aligned_add_adjacent {p : Conj} (key : String) (q : Conj)
    (h : ctm_aligned p) : ctm_aligned (p.add_adjacent key q) := by
  obtain ⟨ctmv, hc, hk, hnd, hm⟩ := h
  obtain ⟨hv, hcm, hmm⟩ := add_adjacent_fields p key q
  refine ⟨ctmv, ?_, ?_, ?_, ?_⟩
  · rw [hcm, hc]
  · show keysOf ctmv = keysOf (p.add_adjacent key q).column_to_values
    rw [hv]
    exact hk
  · show (keysOf (p.add_adjacent key q).column_to_values).Nodup
    rw [hv]
    exact hnd
  · rw [hmm, hm]

theorem link_chain_nil (c : String) : link_chain c [] = [] := by
  rw [link_chain]

theorem link_chain_single (c : String) (a : Conj) : link_chain c [a] = [a] := by
  rw [link_chain]

theorem link_chain_cons2 (c : String) (a b : Conj) (t : List Conj) :
    link_chain c (a :: b :: t) =
      (a.add_adjacent c (b.add_adjacent c a)) ::
        link_chain c ((b.add_adjacent c a) :: t) := by
  rw [link_chain]

theorem link_chain_pres (c : String) (Φ : Conj → Prop)
    (hadd : ∀ (p : Conj) (k : String) (q : Conj), Φ p → Φ (p.add_adjacent k q)) :
    ∀ (n : Nat) (l : List Conj), l.length ≤ n → (∀ x ∈ l, Φ x) →
      ∀ p ∈ link_chain c l, Φ p := by
  intro n
  induction n with
  | zero =>
    intro l hlen h p hp
    have hnil : l = [] := List.eq_nil_of_length_eq_zero (Nat.le_zero.mp hlen)
    subst hnil
    rw [link_chain_nil] at hp
    cases hp
  | succ n ih =>
    intro l hlen h p hp
    cases l with
    | nil =>
      rw [link_chain_nil] at hp
      cases hp
    | cons a t =>
      cases t with
      | nil =>
        rw [link_chain_single] at hp
        rw [List.mem_singleton] at hp
        subst hp
        exact h p (List.mem_singleton.mpr rfl)
      | cons b t2 =>
        rw [link_chain_cons2] at hp
        rcases List.mem_cons.mp hp with he | hm
        · subst he
          exact hadd _ _ _ (h a (List.mem_cons_self a (b :: t2)))
        · have hb1 : ∀ x ∈ (b.add_adjacent c a) :: t2, Φ x := by
            intro x hx
            rcases List.mem_cons.mp hx with he2 | hm2
            · subst he2
              exact hadd _ _ _ (h b (List.mem_cons_of_mem a (List.mem_cons_self b t2)))
            · exact h x (List.mem_cons_of_mem a (List.mem_cons_of_mem b hm2))
          exact ih ((b.add_adjacent c a) :: t2)
            (by simp only [List.length_cons] at hlen ⊢; omega) hb1 p hm

theorem mk_base_aligned {data : Table} {column : String} {v : PyVal} {p : Conj}
    (h : mk_base_conj data column v = some p) : ctm_aligned p := by
  unfold mk_base_conj at h
  simp only [Option.pure_def, Option.bind_eq_bind] at h
  cases hg : get_column_to_mask [(column, [v])] data with
  | none => rw [hg] at h; simp at h
  | some ctm =>
    rw [hg] at h
    simp only [Option.some_bind, Option.some.injEq] at h
    subst h
    unfold get_column_to_mask at hg
    simp only [List.foldr_cons, List.foldr_nil, Option.pure_def, Option.bind_eq_bind] at hg
    cases hcol : lookupList data column with
    | none => rw [hcol] at hg; simp at hg
    | some col =>
      rw [hcol] at hg
      simp only [Option.some_bind, Option.some.injEq] at hg
      subst hg
      exact ⟨_, rfl, rfl, List.nodup_singleton column, rfl⟩

theorem bui_fold_aligned (dobj : TabularState) :
    ∀ (cols : List String) (acc out : List Conj),
      cols.foldlM (fun acc column => do
        let colData ← lookupList dobj.data column
        let vals := sortLe PyVal.leB colData.dedup
        let colPreds ← vals.mapM (fun v => mk_base_conj dobj.data column v)
        let dt ← lookupList dobj.dtypes column
        let linked := if dt = Dtype.ordinal then link_chain column colPreds else colPreds
        pure (acc ++ linked)) acc = some out →
      (∀ x ∈ acc, ctm_aligned x) → ∀ x ∈ out, ctm_aligned x := by
  intro cols
  induction cols with
  | nil =>
    intro acc out h hacc
    simp only [List.foldlM_nil, Option.pure_def, Option.some.injEq] at h
    subst h
    exact hacc
  | cons column t ih =>
    intro acc out h hacc
    rw [List.foldlM_cons] at h
    simp only [Option.pure_def, Option.bind_eq_bind] at h
    cases hcd : lookupList dobj.data column with
    | none => rw [hcd] at h; simp at h
    | some colData =>
      rw [hcd] at h
      simp only [Option.some_bind] at h
      cases hcp : (sortLe PyVal.leB colData.dedup).mapM
          (fun v => mk_base_conj dobj.data column v) with
      | none => rw [hcp] at h; simp at h
      | some colPreds =>
        rw [hcp] at h
        simp only [Option.some_bind] at h
        cases hdt : lookupList dobj.dtypes column with
        | none => rw [hdt] at h; simp at h
        | some dt =>
          rw [hdt] at h
          simp only [Option.some_bind] at h
          have hcpal : ∀ x ∈ colPreds, ctm_aligned x := by
            intro x hx
            obtain ⟨v, _, hv⟩ := (mapM_option_mem _ _ _ hcp x).mp hx
            exact mk_base_aligned hv
          have hlinked : ∀ x ∈ (if dt = Dtype.ordinal
              then link_chain column colPreds else colPreds), ctm_aligned x := by
            by_cases hord : dt = Dtype.ordinal
            · rw [if_pos hord]
              exact link_chain_pres column ctm_aligned
                (fun p1 k q2 hp1 => ctm_aligned_add_adjacent k q2 hp1)
                colPreds.length colPreds (le_refl _) hcpal
            · rw [if_neg hord]
              exact hcpal
          exact ih _ _ h (fun x hx => by
            rcases List.mem_append.mp hx with hm | hm
            · exact hacc x hm
            · exact hlinked x hm)

/-- C7: the cached mask of every predicate emitted during a run equals the
columnwise AND, over every column in its keys, of its per-column mask: it
holds for every base predicate built by `bottom_up_init` (per-column masks
are computed eagerly, the row mask as their row-wise AND, and the ordinal
linking only touches adjacency), and for every result of `merge` on
well-formed operands (the merged frame is aligned with the merged columns
and the mask is recomputed as its row-wise AND). `keys` is the sorted
columns, so the AND over keys ranges over exactly the frame's columns. -/
theorem c7_mask_is_and_over_keys
    (bn : TabularState → String → List PyVal) (dobj : TabularState)
    (cols : List String) (preds : List Conj) (x : Conj)
    (p q r : Conj) (pm qm : List (String × Mask))
    (hinit : bottom_up_init bn dobj cols = some preds) (hx : x ∈ preds)
    (hpm : p.column_to_mask = some pm) (hpk : keysOf pm = p.columns)
    (hpnd : p.columns.Nodup) (hqm : q.column_to_mask = some qm)
    (hqnd : q.columns.Nodup) (hmr : merge p q = some r) :
    x.mask = mask_and_over_keys x ∧ r.mask = mask_and_over_keys r := by
  constructor
  · unfold bottom_up_init at hinit
    simp only [Option.pure_def, Option.bind_eq_bind] at hinit
    by_cases hod : dobj.original_data = none
    · rw [if_pos hod] at hinit
      cases hca : convert_all bn dobj [(Dtype.numeric, Dtype.ordinal)]
          [Dtype.nominal, Dtype.ordinal] cols with
      | none => rw [hca] at hinit; simp at hinit
      | some dobj1 =>
        rw [hca] at hinit
        simp only [Option.some_bind] at hinit
        exact mask_eq_and_over_keys_of_aligned
          (bui_fold_aligned dobj1 cols [] preds hinit (fun y hy => absurd hy
            (List.not_mem_nil y)) x hx)
    · rw [if_neg hod] at hinit
      simp only [Option.some_bind] at hinit
      exact mask_eq_and_over_keys_of_aligned
        (bui_fold_aligned dobj cols [] preds hinit (fun y hy => absurd hy
          (List.not_mem_nil y)) x hx)
  · obtain ⟨ctm, hc, hm, _, hk, hcols, _⟩ := merge_result_spec hpm hqm hpk hqnd hmr
    apply mask_eq_and_over_keys_of_aligned
    refine ⟨ctm, hc, hk, ?_, hm⟩
    rw [hcols]
    exact nodup_append_filter hpnd hqnd

/-- Witness for C7: a one-column nominal table's single base predicate, and
the merge of two aligned single-column predicates. -/
theorem c7_witness :
    (Conj.mk [("a", [PyVal.vint 0])] (some [("a", [true])]) (some [true])
        none [] true none).mask =
      mask_and_over_keys (Conj.mk [("a", [PyVal.vint 0])] (some [("a", [true])])
        (some [true]) none [] true none) ∧
    (Conj.mk [("a", [PyVal.vint 0]), ("b", [PyVal.vint 1])]
        (some [("a", [true, false]), ("b", [true, true])]) (some [true, false]) none []
        false (some (Conj.mk [("a", [PyVal.vint 0])] (some [("a", [true, false])])
          none none [] true none,
          Conj.mk [("b", [PyVal.vint 1])] (some [("b", [true, true])])
            none none [] true none))).mask =
      mask_and_over_keys (Conj.mk [("a", [PyVal.vint 0]), ("b", [PyVal.vint 1])]
        (some [("a", [true, false]), ("b", [true, true])]) (some [true, false]) none []
        false (some (Conj.mk [("a", [PyVal.vint 0])] (some [("a", [true, false])])
          none none [] true none,
          Conj.mk [("b", [PyVal.vint 1])] (some [("b", [true, true])])
            none none [] true none))) :=
  c7_mask_is_and_over_keys (fun _ _ => [])
    (TabularState.mk [("a", [PyVal.vint 0])] [("a", Dtype.nominal)] (some []) none 0 none)
    ["a"]
    [Conj.mk [("a", [PyVal.vint 0])] (some [("a", [true])]) (some [true]) none [] true none]
    (Conj.mk [("a", [PyVal.vint 0])] (some [("a", [true])]) (some [true]) none [] true none)
    (Conj.mk [("a", [PyVal.vint 0])] (some [("a", [true, false])]) none none [] true none)
    (Conj.mk [("b", [PyVal.vint 1])] (some [("b", [true, true])]) none none [] true none)
    (Conj.mk [("a", [PyVal.vint 0]), ("b", [PyVal.vint 1])]
      (some [("a", [true, false]), ("b", [true, true])]) (some [true, false]) none []
      false (some (Conj.mk [("a", [PyVal.vint 0])] (some [("a", [true, false])])
        none none [] true none,
        Conj.mk [("b", [PyVal.vint 1])] (some [("b", [true, true])])
          none none [] true none)))
    [("a", [true, false])] [("b", [true, true])]
    rfl (List.mem_singleton.mpr rfl) rfl rfl (by decide) rfl (by decide) rfl

end PI
